import Mathlib

/-!
# FastHR — verification of the specified hardness-ratio estimator

The repository ships only packaging metadata (`setup.py`) for the library
`fasthr`, whose declared purpose is Bayesian estimation of X-ray hardness
ratios `HR = (H - S) / (H + S)`.  The estimator itself is not present in the
sources, so the core component is modelled from the specification: a
conjugate Gamma–Poisson model per band, exact rational posterior CDF of the
hardness ratio (a finite Beta mixture with integer shape parameters), and
quantile extraction on a fixed grid, as the specification's design section
prescribes (grid-based numerical marginalisation, posterior median as point
estimate, central credible interval from the `[alf/2, 1 - alf/2]` quantiles).

The packaging script `setup.py` itself is embedded at the end of the file.
-/

set_option maxRecDepth 8000

namespace FastHR

/-- Modelled from the spec: the immutable `Observation` record (the data model
section).  Counts are integers so that invalid negative inputs are
representable; backgrounds and the exposure ratio are rationals. -/
structure Observation where
  soft_counts : ℤ
  hard_counts : ℤ
  soft_background : ℚ
  hard_background : ℚ
  exposure_ratio : ℚ

/-- Modelled from the spec: the prior configuration.  The spec leaves the
exact family open ("an implementer must choose a standard conjugate
Poisson-rate prior ... and document the choice"); we fix a per-band
`Gamma(shape, rate)` prior with a positive integer shape, the choice that
keeps the conjugate posterior CDF exactly computable over `ℚ`.  The prior is
proper iff `1 ≤ shape` and `0 < rate`. -/
structure PriorSpec where
  shape : ℕ
  rate : ℚ

/-- Modelled from the spec: the credible interval of a `PosteriorResult`. -/
structure CredibleInterval where
  lower : ℚ
  upper : ℚ

/-- Modelled from the spec: the output record of the estimator. -/
structure PosteriorResult where
  point_estimate : ℚ
  credible_interval : CredibleInterval
  confidence_level : ℚ

/-- Modelled from the spec: the error raised on malformed input, carrying the
offending field name and value. -/
structure InvalidInputError where
  field : String
  value : ℚ

/-- Validity of an `Observation` (the data-model invariant). -/
def Observation.Valid (o : Observation) : Prop :=
  0 ≤ o.soft_counts ∧ 0 ≤ o.hard_counts ∧ 0 ≤ o.soft_background ∧
    0 ≤ o.hard_background ∧ 0 < o.exposure_ratio

instance (o : Observation) : Decidable o.Valid := by
  unfold Observation.Valid; infer_instance

/-- Properness (normalizability) of the per-band Gamma prior. -/
def PriorSpec.Valid (p : PriorSpec) : Prop := 1 ≤ p.shape ∧ 0 < p.rate

instance (p : PriorSpec) : Decidable p.Valid := by
  unfold PriorSpec.Valid; infer_instance

/-- A confidence level is valid iff it lies in the open interval `(0, 1)`. -/
def ValidConf (c : ℚ) : Prop := 0 < c ∧ c < 1

instance (c : ℚ) : Decidable (ValidConf c) := by
  unfold ValidConf; infer_instance

/-- Least `k < n` satisfying `P`, and `n` when there is none. -/
def firstSat (P : ℕ → Prop) [DecidablePred P] : ℕ → ℕ
  | 0 => 0
  | n + 1 =>
    if firstSat P n < n then firstSat P n else if P n then n else n + 1

theorem firstSat_le (P : ℕ → Prop) [DecidablePred P] (n : ℕ) :
    firstSat P n ≤ n := by
  induction n with
  | zero => simp [firstSat]
  | succ n ih =>
    unfold firstSat
    split
    · omega
    · split <;> omega

theorem firstSat_spec (P : ℕ → Prop) [DecidablePred P] (n : ℕ)
    (h : firstSat P n < n) : P (firstSat P n) := by
  induction n with
  | zero => omega
  | succ n ih =>
    unfold firstSat at h ⊢
    by_cases h1 : firstSat P n < n
    · rw [if_pos h1] at h ⊢; exact ih h1
    · rw [if_neg h1] at h ⊢
      by_cases h2 : P n
      · rw [if_pos h2] at h ⊢; exact h2
      · rw [if_neg h2] at h; omega

theorem firstSat_min (P : ℕ → Prop) [DecidablePred P] (n : ℕ) (k : ℕ)
    (hk : k < firstSat P n) : ¬ P k := by
  induction n with
  | zero => simp [firstSat] at hk
  | succ n ih =>
    unfold firstSat at hk
    by_cases h1 : firstSat P n < n
    · rw [if_pos h1] at hk; exact ih hk
    · rw [if_neg h1] at hk
      by_cases h2 : P n
      · rw [if_pos h2] at hk
        exact ih (by have := firstSat_le P n; omega)
      · rw [if_neg h2] at hk
        rcases Nat.lt_or_ge k n with h3 | h3
        · exact ih (by have := firstSat_le P n; omega)
        · have : k = n := by omega
          simpa [this] using h2

theorem firstSat_le_of (P : ℕ → Prop) [DecidablePred P] (n : ℕ) (k : ℕ)
    (hk : k < n) (hP : P k) : firstSat P n ≤ k := by
  by_contra h
  exact firstSat_min P n k (by omega) hP

theorem firstSat_mono (P Q : ℕ → Prop) [DecidablePred P] [DecidablePred Q]
    (n : ℕ) (h : ∀ k, k < n → P k → Q k) : firstSat Q n ≤ firstSat P n := by
  rcases Nat.lt_or_ge (firstSat P n) n with hlt | hge
  · exact firstSat_le_of Q n _ hlt (h _ hlt (firstSat_spec P n hlt))
  · have := firstSat_le P n
    have := firstSat_le Q n
    omega

theorem firstSat_congr (P Q : ℕ → Prop) [DecidablePred P] [DecidablePred Q]
    (n : ℕ) (h : ∀ k, k < n → (P k ↔ Q k)) : firstSat P n = firstSat Q n :=
  le_antisymm (firstSat_mono Q P n fun k hk hq => (h k hk).mpr hq)
    (firstSat_mono P Q n fun k hk hp => (h k hk).mp hp)

theorem findGreatest_pos_spec (P : ℕ → Prop) [DecidablePred P] (n : ℕ)
    (h : 0 < Nat.findGreatest P n) : P (Nat.findGreatest P n) := by
  induction n with
  | zero => simp [Nat.findGreatest] at h
  | succ n ih =>
    rw [Nat.findGreatest_succ] at h ⊢
    by_cases hp : P (n + 1)
    · simpa [hp]
    · rw [if_neg hp] at h ⊢; exact ih h

theorem findGreatest_mono_of (P Q : ℕ → Prop) [DecidablePred P]
    [DecidablePred Q] (n : ℕ) (h : ∀ k, k ≤ n → P k → Q k) :
    Nat.findGreatest P n ≤ Nat.findGreatest Q n := by
  rcases Nat.eq_zero_or_pos (Nat.findGreatest P n) with h0 | hpos
  · omega
  · have hspec := findGreatest_pos_spec P n hpos
    have hle : Nat.findGreatest P n ≤ n := Nat.findGreatest_le n
    exact Nat.le_findGreatest hle (h _ hle hspec)

theorem findGreatest_congr (P Q : ℕ → Prop) [DecidablePred P] [DecidablePred Q]
    (n : ℕ) (h : ∀ k, k ≤ n → (P k ↔ Q k)) :
    Nat.findGreatest P n = Nat.findGreatest Q n :=
  le_antisymm (findGreatest_mono_of P Q n fun k hk hp => (h k hk).mp hp)
    (findGreatest_mono_of Q P n fun k hk hq => (h k hk).mpr hq)

/-- Mirror identity tying the least index satisfying `P` below `N` to the
greatest index satisfying the reflected predicate `Q`. -/
theorem firstSat_add_findGreatest (P Q : ℕ → Prop) [DecidablePred P]
    [DecidablePred Q] (N : ℕ) (hiff : ∀ k, k ≤ N → (P k ↔ Q (N - k)))
    (hPN : P N) : firstSat P (N + 1) + Nat.findGreatest Q N = N := by
  set m := firstSat P (N + 1) with hm
  have hmN : m ≤ N := firstSat_le_of P (N + 1) N (by omega) hPN
  have hPm : P m := firstSat_spec P (N + 1) (by omega)
  have hQ : Q (N - m) := (hiff m hmN).mp hPm
  have h1 : N - m ≤ Nat.findGreatest Q N := Nat.le_findGreatest (by omega) hQ
  have h2 : Nat.findGreatest Q N ≤ N - m := by
    rcases Nat.eq_zero_or_pos (Nat.findGreatest Q N) with h0 | hpos
    · omega
    · set g := Nat.findGreatest Q N with hg
      have hgN : g ≤ N := Nat.findGreatest_le N
      have hQg : Q g := findGreatest_pos_spec Q N hpos
      have hPg : P (N - g) := by
        refine (hiff (N - g) (by omega)).mpr ?_
        rw [Nat.sub_sub_self hgN]; exact hQg
      have := firstSat_le_of P (N + 1) (N - g) (by omega) hPg
      omega
  omega

/-- Upper tail `P(Bin(n, x) ≥ a)` of a binomial distribution.  For positive
integers `a`, `b` this is the regularized incomplete Beta function
`I_x(a, b)` with `n = a + b - 1`, i.e. the exact CDF of a `Beta(a, b)` law
evaluated at `x` — the building block of the conjugate posterior CDF. -/
def binTail (n a : ℕ) (x : ℚ) : ℚ :=
  ∑ m ∈ Finset.range (n + 1),
    if a ≤ m then (n.choose m : ℚ) * x ^ m * (1 - x) ^ (n - m) else 0

theorem binTail_nonneg (n a : ℕ) (x : ℚ) (h0 : 0 ≤ x) (h1 : x ≤ 1) :
    0 ≤ binTail n a x := by
  refine Finset.sum_nonneg fun m _ => ?_
  by_cases hm : a ≤ m
  · rw [if_pos hm]
    have hx : (0:ℚ) ≤ 1 - x := by linarith
    positivity
  · rw [if_neg hm]

theorem binTail_zero_a (n : ℕ) (x : ℚ) : binTail n 0 x = 1 := by
  unfold binTail
  have h := add_pow x (1 - x) n
  have h2 : (x + (1 - x) : ℚ) = 1 := by ring
  rw [h2, one_pow] at h
  calc (∑ m ∈ Finset.range (n + 1),
          if 0 ≤ m then (n.choose m : ℚ) * x ^ m * (1 - x) ^ (n - m) else 0)
      = ∑ m ∈ Finset.range (n + 1), x ^ m * (1 - x) ^ (n - m) * (n.choose m : ℚ) := by
        refine Finset.sum_congr rfl fun m _ => ?_
        rw [if_pos (Nat.zero_le m)]; ring
    _ = 1 := h.symm

theorem binTail_anti_a (n a a' : ℕ) (x : ℚ) (haa : a ≤ a') (h0 : 0 ≤ x)
    (h1 : x ≤ 1) : binTail n a' x ≤ binTail n a x := by
  refine Finset.sum_le_sum fun m _ => ?_
  by_cases hm' : a' ≤ m
  · rw [if_pos hm', if_pos (le_trans haa hm')]
  · rw [if_neg hm']
    by_cases hm : a ≤ m
    · rw [if_pos hm]
      have hx : (0:ℚ) ≤ 1 - x := by linarith
      positivity
    · rw [if_neg hm]

theorem binTail_le_one (n a : ℕ) (x : ℚ) (h0 : 0 ≤ x) (h1 : x ≤ 1) :
    binTail n a x ≤ 1 := by
  have := binTail_anti_a n 0 a x (Nat.zero_le a) h0 h1
  rwa [binTail_zero_a] at this

/-- Pascal-style recurrence for the binomial tail. -/
theorem binTail_succ (n a : ℕ) (x : ℚ) :
    binTail (n + 1) (a + 1) x =
      x * binTail n a x + (1 - x) * binTail n (a + 1) x := by
  have hL : binTail (n + 1) (a + 1) x
      = ∑ m ∈ Finset.range (n + 1),
          if a ≤ m then ((n+1).choose (m+1) : ℚ) * x ^ (m+1) * (1-x) ^ (n-m) else 0 := by
    unfold binTail
    rw [Finset.sum_range_succ'
      (fun m => if a + 1 ≤ m then ((n+1).choose m : ℚ) * x ^ m * (1-x) ^ (n+1-m) else 0) (n+1)]
    rw [if_neg (show ¬ a + 1 ≤ 0 by omega), add_zero]
    refine Finset.sum_congr rfl fun m _ => ?_
    by_cases hma : a ≤ m
    · rw [if_pos (by omega), if_pos hma]
      have hnm : n + 1 - (m + 1) = n - m := by omega
      rw [hnm]
    · rw [if_neg (by omega), if_neg hma]
  have hfirst : (∑ m ∈ Finset.range (n + 1),
      if a ≤ m then x * ((n.choose m : ℚ) * x ^ m * (1-x) ^ (n-m)) else 0)
      = x * binTail n a x := by
    unfold binTail
    rw [Finset.mul_sum]
    refine Finset.sum_congr rfl fun m _ => ?_
    by_cases hma : a ≤ m
    · rw [if_pos hma, if_pos hma]
    · rw [if_neg hma, if_neg hma, mul_zero]
  have hsecond : (∑ m ∈ Finset.range (n + 1),
      if a ≤ m then ((n.choose (m+1) : ℚ) * x ^ (m+1) * (1-x) ^ (n-m)) else 0)
      = (1 - x) * binTail n (a + 1) x := by
    have hT : (1 - x) * binTail n (a + 1) x
        = ∑ m ∈ Finset.range (n + 1),
            if a + 1 ≤ m then ((n.choose m : ℚ) * x ^ m * (1-x) ^ (n-m+1)) else 0 := by
      unfold binTail
      rw [Finset.mul_sum]
      refine Finset.sum_congr rfl fun m hm => ?_
      rw [Finset.mem_range] at hm
      by_cases hma : a + 1 ≤ m
      · rw [if_pos hma, if_pos hma, pow_succ]
        ring
      · rw [if_neg hma, if_neg hma, mul_zero]
    have hR := Finset.sum_range_succ'
      (fun m => if a + 1 ≤ m then ((n.choose m : ℚ) * x ^ m * (1-x) ^ (n-m+1)) else 0) n
    rw [hT, hR, if_neg (show ¬ a + 1 ≤ 0 by omega), add_zero]
    rw [Finset.sum_range_succ]
    have hlast : (if a ≤ n then ((n.choose (n+1) : ℚ) * x ^ (n+1) * (1-x) ^ (n-n)) else 0) = 0 := by
      by_cases hna : a ≤ n
      · rw [if_pos hna, Nat.choose_succ_self]
        push_cast; ring
      · rw [if_neg hna]
    rw [hlast, add_zero]
    refine Finset.sum_congr rfl fun m hm => ?_
    rw [Finset.mem_range] at hm
    by_cases hma : a ≤ m
    · rw [if_pos hma, if_pos (by omega)]
      have hnm : n - (m + 1) + 1 = n - m := by omega
      rw [hnm]
    · rw [if_neg hma, if_neg (by omega)]
  rw [hL, ← hfirst, ← hsecond, ← Finset.sum_add_distrib]
  refine Finset.sum_congr rfl fun m _ => ?_
  by_cases hma : a ≤ m
  · rw [if_pos hma, if_pos hma, if_pos hma, Nat.choose_succ_succ]
    push_cast
    ring
  · rw [if_neg hma, if_neg hma, if_neg hma, add_zero]

theorem binTail_succ_n (n a : ℕ) (x : ℚ) (ha : 1 ≤ a) (h0 : 0 ≤ x)
    (h1 : x ≤ 1) : binTail n a x ≤ binTail (n + 1) a x := by
  obtain ⟨a', rfl⟩ : ∃ a', a = a' + 1 := ⟨a - 1, by omega⟩
  rw [binTail_succ]
  have h2 : binTail n (a' + 1) x ≤ binTail n a' x :=
    binTail_anti_a n a' (a' + 1) x (by omega) h0 h1
  nlinarith [binTail_nonneg n (a' + 1) x h0 h1]

theorem binTail_mono_n (n n' a : ℕ) (x : ℚ) (ha : 1 ≤ a) (hnn : n ≤ n')
    (h0 : 0 ≤ x) (h1 : x ≤ 1) : binTail n a x ≤ binTail n' a x := by
  induction n' with
  | zero => have : n = 0 := by omega
            simp [this]
  | succ n' ih =>
    rcases Nat.lt_or_ge n (n' + 1) with hlt | hge
    · exact le_trans (ih (by omega)) (binTail_succ_n n' a x ha h0 h1)
    · have : n = n' + 1 := by omega
      simp [this]

theorem binTail_succ_both (n a : ℕ) (x : ℚ) (h0 : 0 ≤ x) (h1 : x ≤ 1) :
    binTail (n + 1) (a + 1) x ≤ binTail n a x := by
  rw [binTail_succ]
  have h2 : binTail n (a + 1) x ≤ binTail n a x :=
    binTail_anti_a n a (a + 1) x (by omega) h0 h1
  nlinarith

theorem binTail_add_both (n a d : ℕ) (x : ℚ) (h0 : 0 ≤ x) (h1 : x ≤ 1) :
    binTail (n + d) (a + d) x ≤ binTail n a x := by
  induction d with
  | zero => simp
  | succ d ih =>
    calc binTail (n + (d + 1)) (a + (d + 1)) x
        = binTail ((n + d) + 1) ((a + d) + 1) x := by ring_nf
      _ ≤ binTail (n + d) (a + d) x := binTail_succ_both (n + d) (a + d) x h0 h1
      _ ≤ binTail n a x := ih

theorem binTail_at_one (n a : ℕ) (han : a ≤ n) : binTail n a 1 = 1 := by
  unfold binTail
  rw [Finset.sum_range_succ]
  have hmid : ∀ m ∈ Finset.range n,
      (if a ≤ m then (n.choose m : ℚ) * 1 ^ m * (1 - 1) ^ (n - m) else 0) = 0 := by
    intro m hm
    rw [Finset.mem_range] at hm
    by_cases hma : a ≤ m
    · rw [if_pos hma]
      have : (1 - 1 : ℚ) ^ (n - m) = 0 := by
        rw [sub_self, zero_pow (by omega)]
      rw [this]; ring
    · rw [if_neg hma]
  rw [Finset.sum_congr rfl hmid, Finset.sum_const, smul_zero, zero_add,
    if_pos han, Nat.choose_self, Nat.sub_self]
  norm_num

theorem binTail_at_zero (n a : ℕ) (ha : 1 ≤ a) : binTail n a 0 = 0 := by
  unfold binTail
  refine Finset.sum_eq_zero fun m _ => ?_
  by_cases hma : a ≤ m
  · rw [if_pos hma, zero_pow (by omega)]; ring
  · rw [if_neg hma]

/-- Reflection identity: the tail at `a` plus the reflected tail at
`n - a + 1` in `1 - x` is `1` (i.e. `I_x(a,b) + I_(1-x)(b,a) = 1`). -/
theorem binTail_mirror (n a : ℕ) (x : ℚ) (ha : 1 ≤ a) (han : a ≤ n) :
    binTail n a x + binTail n (n - a + 1) (1 - x) = 1 := by
  have hrefl : binTail n (n - a + 1) (1 - x)
      = ∑ m ∈ Finset.range (n + 1),
          if ¬ a ≤ m then (n.choose m : ℚ) * x ^ m * (1 - x) ^ (n - m) else 0 := by
    unfold binTail
    rw [← Finset.sum_range_reflect]
    refine Finset.sum_congr rfl fun m hm => ?_
    rw [Finset.mem_range] at hm
    have hmn : m ≤ n := by omega
    have h1 : n + 1 - 1 - m = n - m := by omega
    rw [h1]
    have h2 : n.choose (n - m) = n.choose m := Nat.choose_symm hmn
    by_cases hc : n - a + 1 ≤ n - m
    · rw [if_pos hc, if_pos (by omega), h2]
      have h3 : (1 - (1 - x) : ℚ) = x := by ring
      have h4 : n - (n - m) = m := by omega
      rw [h3, h4]
      ring
    · rw [if_neg hc, if_neg (by omega)]
  rw [hrefl]
  unfold binTail
  rw [← Finset.sum_add_distrib]
  have hall : ∀ m ∈ Finset.range (n + 1),
      ((if a ≤ m then (n.choose m : ℚ) * x ^ m * (1 - x) ^ (n - m) else 0)
        + if ¬ a ≤ m then (n.choose m : ℚ) * x ^ m * (1 - x) ^ (n - m) else 0)
      = (n.choose m : ℚ) * x ^ m * (1 - x) ^ (n - m) := by
    intro m _
    by_cases hma : a ≤ m
    · rw [if_pos hma, if_neg (by simpa using hma), add_zero]
    · rw [if_neg hma, if_pos hma, zero_add]
  rw [Finset.sum_congr rfl hall]
  have h := binTail_zero_a n x
  unfold binTail at h
  calc (∑ m ∈ Finset.range (n + 1), (n.choose m : ℚ) * x ^ m * (1 - x) ^ (n - m))
      = ∑ m ∈ Finset.range (n + 1),
          (if 0 ≤ m then (n.choose m : ℚ) * x ^ m * (1 - x) ^ (n - m) else 0) := by
        refine Finset.sum_congr rfl fun m _ => ?_
        rw [if_pos (Nat.zero_le m)]
    _ = 1 := h

theorem choose_sub_mul (n j : ℕ) (hj : j ≤ n) :
    (n + 1 - j) * (n + 1).choose j = (n + 1) * n.choose j := by
  have h1 : (n + 1).choose j = (n + 1).choose (n + 1 - j) :=
    (Nat.choose_symm (by omega)).symm
  have h2 := Nat.succ_mul_choose_eq n (n - j)
  simp only [Nat.succ_eq_add_one] at h2
  have h3 : n.choose (n - j) = n.choose j := Nat.choose_symm hj
  have h4 : n - j + 1 = n + 1 - j := by omega
  rw [h3, h4] at h2
  rw [h1, mul_comm]
  exact h2.symm

/-- Cross-product (log-supermodularity) inequality for binomial rows: the row
`n+1` dominates row `n` in the likelihood-ratio order. -/
theorem choose_cross (n i k : ℕ) (hik : i ≤ k) :
    (n + 1).choose i * n.choose k ≤ n.choose i * (n + 1).choose k := by
  rcases Nat.lt_or_ge n k with hnk | hnk
  · rw [Nat.choose_eq_zero_of_lt hnk, mul_zero]
    exact Nat.zero_le _
  · have hin : i ≤ n := le_trans hik hnk
    have hpos_i : 0 < n + 1 - i := by omega
    have hpos_k : 0 < n + 1 - k := by omega
    have key : (n + 1 - i) * ((n + 1 - k) * ((n + 1).choose i * n.choose k))
        ≤ (n + 1 - i) * ((n + 1 - k) * (n.choose i * (n + 1).choose k)) := by
      have e1 : (n + 1 - i) * ((n + 1 - k) * ((n + 1).choose i * n.choose k))
          = ((n + 1 - i) * (n + 1).choose i) * ((n + 1 - k) * n.choose k) := by ring
      have e2 : (n + 1 - i) * ((n + 1 - k) * (n.choose i * (n + 1).choose k))
          = ((n + 1 - k) * (n + 1).choose k) * ((n + 1 - i) * n.choose i) := by ring
      rw [e1, e2, choose_sub_mul n i hin, choose_sub_mul n k hnk]
      have hki : n + 1 - k ≤ n + 1 - i := by omega
      calc (n + 1) * n.choose i * ((n + 1 - k) * n.choose k)
          = (n + 1 - k) * ((n + 1) * (n.choose i * n.choose k)) := by ring
        _ ≤ (n + 1 - i) * ((n + 1) * (n.choose i * n.choose k)) :=
            Nat.mul_le_mul hki (le_refl _)
        _ = (n + 1) * n.choose k * ((n + 1 - i) * n.choose i) := by ring
    exact Nat.le_of_mul_le_mul_left (Nat.le_of_mul_le_mul_left key hpos_i) hpos_k

/-- Modelled from the spec: the `i`-th mixture weight of the per-band
posterior on a latent Poisson rate.  With known expected background `b`,
band scale `sc` and posterior Gamma rate `c`, the posterior of the band rate
given `n` observed counts and a `Gamma(α, ·)` prior is the finite mixture
`Σ_i mixWeight · Gamma(i + α, c)` obtained by expanding
`(sc·λ + b)^n · λ^(α-1) · exp(-cλ)`. -/
def mixWeight (n : ℕ) (sc b c : ℚ) (α : ℕ) (i : ℕ) : ℚ :=
  (n.choose i : ℚ) * sc ^ i * b ^ (n - i) * ((i + α - 1).factorial : ℚ) / c ^ (i + α)

theorem mixWeight_nonneg (n : ℕ) (sc b c : ℚ) (α : ℕ) (i : ℕ)
    (hsc : 0 ≤ sc) (hb : 0 ≤ b) (hc : 0 < c) : 0 ≤ mixWeight n sc b c α i := by
  unfold mixWeight
  positivity

theorem mixWeight_top_pos (n : ℕ) (sc b c : ℚ) (α : ℕ)
    (hsc : 0 < sc) (hc : 0 < c) : 0 < mixWeight n sc b c α n := by
  unfold mixWeight
  rw [Nat.choose_self, Nat.sub_self, pow_zero]
  have hf : (0:ℚ) < ((n + α - 1).factorial : ℚ) := by
    exact_mod_cast Nat.factorial_pos _
  positivity

theorem sum_mixWeight_pos (n : ℕ) (sc b c : ℚ) (α : ℕ)
    (hsc : 0 < sc) (hb : 0 ≤ b) (hc : 0 < c) :
    0 < ∑ i ∈ Finset.range (n + 1), mixWeight n sc b c α i := by
  refine Finset.sum_pos' (fun i _ => mixWeight_nonneg n sc b c α i hsc.le hb hc) ?_
  exact ⟨n, Finset.self_mem_range_succ n, mixWeight_top_pos n sc b c α hsc hc⟩

theorem mixWeight_cross (n : ℕ) (sc b c : ℚ) (α : ℕ) (i k : ℕ) (hik : i ≤ k)
    (hsc : 0 ≤ sc) (hb : 0 ≤ b) (hc : 0 < c) :
    mixWeight (n + 1) sc b c α i * mixWeight n sc b c α k
      ≤ mixWeight n sc b c α i * mixWeight (n + 1) sc b c α k := by
  rcases Nat.lt_or_ge n k with hnk | hnk
  · have hz : mixWeight n sc b c α k = 0 := by
      unfold mixWeight
      rw [Nat.choose_eq_zero_of_lt hnk]
      push_cast
      ring
    rw [hz, mul_zero]
    exact mul_nonneg (mixWeight_nonneg _ _ _ _ _ _ hsc hb hc)
      (mixWeight_nonneg _ _ _ _ _ _ hsc hb hc)
  · have hin : i ≤ n := le_trans hik hnk
    unfold mixWeight
    rw [div_mul_div_comm, div_mul_div_comm]
    have hD : (0:ℚ) < c ^ (i + α) * c ^ (k + α) := by positivity
    rw [div_le_div_iff hD hD]
    have hE : (n + 1 - i) + (n - k) = (n - i) + (n + 1 - k) := by omega
    have hcast : (((n+1).choose i * n.choose k : ℕ) : ℚ)
        ≤ ((n.choose i * (n+1).choose k : ℕ) : ℚ) :=
      Nat.cast_le.mpr (choose_cross n i k hik)
    have hfacts : (0:ℚ) ≤ sc ^ i * sc ^ k * b ^ ((n + 1 - i) + (n - k))
        * ((i + α - 1).factorial : ℚ) * ((k + α - 1).factorial : ℚ) := by positivity
    calc ((n+1).choose i : ℚ) * sc ^ i * b ^ (n+1-i) * ((i + α - 1).factorial : ℚ)
          * ((n.choose k : ℚ) * sc ^ k * b ^ (n-k) * ((k + α - 1).factorial : ℚ))
          * (c ^ (i + α) * c ^ (k + α))
        = (((n+1).choose i * n.choose k : ℕ) : ℚ)
          * (sc ^ i * sc ^ k * (b ^ (n+1-i) * b ^ (n-k))
             * ((i + α - 1).factorial : ℚ) * ((k + α - 1).factorial : ℚ))
          * (c ^ (i + α) * c ^ (k + α)) := by push_cast; ring
      _ = (((n+1).choose i * n.choose k : ℕ) : ℚ)
          * (sc ^ i * sc ^ k * b ^ ((n+1-i) + (n-k))
             * ((i + α - 1).factorial : ℚ) * ((k + α - 1).factorial : ℚ))
          * (c ^ (i + α) * c ^ (k + α)) := by rw [pow_add]; ring_nf
      _ ≤ ((n.choose i * (n+1).choose k : ℕ) : ℚ)
          * (sc ^ i * sc ^ k * b ^ ((n+1-i) + (n-k))
             * ((i + α - 1).factorial : ℚ) * ((k + α - 1).factorial : ℚ))
          * (c ^ (i + α) * c ^ (k + α)) := by
            refine mul_le_mul_of_nonneg_right (mul_le_mul_of_nonneg_right hcast hfacts) ?_
            positivity
      _ = ((n.choose i : ℚ)) * sc ^ i * b ^ (n-i) * ((i + α - 1).factorial : ℚ)
          * (((n+1).choose k : ℚ) * sc ^ k * b ^ (n+1-k) * ((k + α - 1).factorial : ℚ))
          * (c ^ (i + α) * c ^ (k + α)) := by
            rw [hE, pow_add]; push_cast; ring

/-- Likelihood-ratio dominance transfers to expectations: if the weights `w'`
dominate `w` in the cross-product (MLR) order and `A` is nondecreasing, then
the `w'`-average of `A` is at least the `w`-average (in cleared-denominator
form). -/
theorem expectation_shift (R : Finset ℕ) (w w' A : ℕ → ℚ)
    (hw : ∀ i, 0 ≤ w i) (hw' : ∀ i, 0 ≤ w' i)
    (hA : ∀ i k, i ≤ k → A i ≤ A k)
    (hc : ∀ i k, i ≤ k → w' i * w k ≤ w i * w' k) :
    (∑ i ∈ R, w i * A i) * (∑ i ∈ R, w' i)
      ≤ (∑ i ∈ R, w' i * A i) * (∑ i ∈ R, w i) := by
  have key : (0:ℚ) ≤ ∑ i ∈ R, ∑ k ∈ R, (A i - A k) * (w' i * w k - w i * w' k) := by
    refine Finset.sum_nonneg fun i _ => Finset.sum_nonneg fun k _ => ?_
    rcases le_total i k with hik | hki
    · have h1 : A i - A k ≤ 0 := by have := hA i k hik; linarith
      have h2 : w' i * w k - w i * w' k ≤ 0 := by have := hc i k hik; linarith
      nlinarith
    · have h1 : 0 ≤ A i - A k := by have := hA k i hki; linarith
      have h2 : 0 ≤ w' i * w k - w i * w' k := by
        have := hc k i hki; nlinarith [hw i, hw k, hw' i, hw' k]
      positivity
  have expand : (∑ i ∈ R, ∑ k ∈ R, (A i - A k) * (w' i * w k - w i * w' k))
      = 2 * ((∑ i ∈ R, w' i * A i) * (∑ i ∈ R, w i)
             - (∑ i ∈ R, w i * A i) * (∑ i ∈ R, w' i)) := by
    have h1 : ∀ i, (∑ k ∈ R, (A i - A k) * (w' i * w k - w i * w' k))
        = (A i * w' i) * (∑ k ∈ R, w k) - (A i * w i) * (∑ k ∈ R, w' k)
          - w' i * (∑ k ∈ R, A k * w k) + w i * (∑ k ∈ R, A k * w' k) := by
      intro i
      rw [Finset.mul_sum, Finset.mul_sum, Finset.mul_sum, Finset.mul_sum,
        ← Finset.sum_sub_distrib, ← Finset.sum_sub_distrib, ← Finset.sum_add_distrib]
      refine Finset.sum_congr rfl fun k _ => ?_
      ring
    rw [Finset.sum_congr rfl fun i _ => h1 i]
    rw [Finset.sum_add_distrib, Finset.sum_sub_distrib, Finset.sum_sub_distrib,
      ← Finset.sum_mul, ← Finset.sum_mul, ← Finset.sum_mul, ← Finset.sum_mul]
    have e1 : (∑ i ∈ R, A i * w' i) = ∑ i ∈ R, w' i * A i := by
      refine Finset.sum_congr rfl fun i _ => by ring
    have e2 : (∑ i ∈ R, A i * w i) = ∑ i ∈ R, w i * A i := by
      refine Finset.sum_congr rfl fun i _ => by ring
    rw [e1, e2]
    ring
  rw [expand] at key
  linarith

/-- Modelled from the spec: change of variables sending a grid point `s` for
the fraction `x = λH / (λS + λH)` to the corresponding argument of the
standardized Beta CDF, when the two bands have posterior Gamma rates `cS`
and `cH`. -/
def tau (cS cH s : ℚ) : ℚ := cH * s / (cH * s + cS * (1 - s))

theorem tau_denom_pos (cS cH s : ℚ) (hcS : 0 < cS) (hcH : 0 < cH)
    (h0 : 0 ≤ s) (h1 : s ≤ 1) : 0 < cH * s + cS * (1 - s) := by
  rcases eq_or_lt_of_le h0 with h | h
  · have : s = 0 := h.symm
    rw [this]; nlinarith
  · nlinarith

theorem tau_nonneg (cS cH s : ℚ) (hcS : 0 < cS) (hcH : 0 < cH)
    (h0 : 0 ≤ s) (h1 : s ≤ 1) : 0 ≤ tau cS cH s := by
  unfold tau
  have hd := tau_denom_pos cS cH s hcS hcH h0 h1
  positivity

theorem tau_le_one (cS cH s : ℚ) (hcS : 0 < cS) (hcH : 0 < cH)
    (h0 : 0 ≤ s) (h1 : s ≤ 1) : tau cS cH s ≤ 1 := by
  unfold tau
  have hd := tau_denom_pos cS cH s hcS hcH h0 h1
  rw [div_le_one hd]
  nlinarith

theorem tau_at_one (cS cH : ℚ) (hcH : cH ≠ 0) : tau cS cH 1 = 1 := by
  unfold tau
  rw [sub_self, mul_zero, add_zero, mul_one, div_self hcH]

theorem tau_at_zero (cS cH : ℚ) (hcS : cS ≠ 0) : tau cS cH 0 = 0 := by
  unfold tau
  rw [mul_zero, zero_div]

theorem tau_self (c s : ℚ) (hc : c ≠ 0) : tau c c s = s := by
  unfold tau
  have hd : c * s + c * (1 - s) = c := by ring
  rw [hd, mul_comm, mul_div_assoc, div_self hc, mul_one]

theorem mixWeight_eq_zero (n : ℕ) (sc b c : ℚ) (α i : ℕ) (h : n < i) :
    mixWeight n sc b c α i = 0 := by
  unfold mixWeight
  rw [Nat.choose_eq_zero_of_lt h]
  push_cast
  ring

/-- Modelled from the spec: soft-band posterior mixture weights.  The soft
band has unit effective exposure, expected background `bS`, posterior Gamma
rate `1 + β`. -/
def wS (nS : ℕ) (bS β : ℚ) (α : ℕ) : ℕ → ℚ := mixWeight nS 1 bS (1 + β) α

/-- Modelled from the spec: hard-band posterior mixture weights.  The hard
band has effective exposure `r` (the exposure ratio), expected background
`bH`, posterior Gamma rate `r + β`. -/
def wH (nH : ℕ) (bH r β : ℚ) (α : ℕ) : ℕ → ℚ := mixWeight nH r bH (r + β) α

/-- Modelled from the spec: unnormalized exact posterior CDF of the fraction
`x = λH / (λS + λH)` (so `HR = 2x - 1`), evaluated at `s`.  Marginalizing the
independent per-band Gamma-mixture posteriors gives a mixture of Beta CDFs
with integer shapes, each of which is the binomial tail `binTail`. -/
def postNum (nS nH : ℕ) (bS bH r β : ℚ) (α : ℕ) (s : ℚ) : ℚ :=
  ∑ i ∈ Finset.range (nS + 1), wS nS bS β α i *
    ∑ j ∈ Finset.range (nH + 1), wH nH bH r β α j *
      binTail (i + j + 2 * α - 1) (j + α) (tau (1 + β) (r + β) s)

/-- Modelled from the spec: total unnormalized posterior mass, the
normalization constant of `postNum`. -/
def postTot (nS nH : ℕ) (bS bH r β : ℚ) (α : ℕ) : ℚ :=
  (∑ i ∈ Finset.range (nS + 1), wS nS bS β α i) *
    (∑ j ∈ Finset.range (nH + 1), wH nH bH r β α j)

theorem wS_nonneg (nS : ℕ) (bS β : ℚ) (α : ℕ) (i : ℕ)
    (hb : 0 ≤ bS) (hβ : 0 < β) : 0 ≤ wS nS bS β α i :=
  mixWeight_nonneg _ _ _ _ _ _ (by norm_num) hb (by linarith)

theorem wH_nonneg (nH : ℕ) (bH r β : ℚ) (α : ℕ) (j : ℕ)
    (hb : 0 ≤ bH) (hr : 0 < r) (hβ : 0 < β) : 0 ≤ wH nH bH r β α j :=
  mixWeight_nonneg _ _ _ _ _ _ hr.le hb (by linarith)

theorem sum_wS_pos (nS : ℕ) (bS β : ℚ) (α : ℕ) (hb : 0 ≤ bS) (hβ : 0 < β) :
    0 < ∑ i ∈ Finset.range (nS + 1), wS nS bS β α i :=
  sum_mixWeight_pos _ _ _ _ _ (by norm_num) hb (by linarith)

theorem sum_wH_pos (nH : ℕ) (bH r β : ℚ) (α : ℕ) (hb : 0 ≤ bH) (hr : 0 < r)
    (hβ : 0 < β) : 0 < ∑ j ∈ Finset.range (nH + 1), wH nH bH r β α j :=
  sum_mixWeight_pos _ _ _ _ _ hr hb (by linarith)

theorem postTot_pos (nS nH : ℕ) (bS bH r β : ℚ) (α : ℕ)
    (hbS : 0 ≤ bS) (hbH : 0 ≤ bH) (hr : 0 < r) (hβ : 0 < β) :
    0 < postTot nS nH bS bH r β α :=
  mul_pos (sum_wS_pos nS bS β α hbS hβ) (sum_wH_pos nH bH r β α hbH hr hβ)

theorem postNum_nonneg (nS nH : ℕ) (bS bH r β : ℚ) (α : ℕ) (s : ℚ)
    (hbS : 0 ≤ bS) (hbH : 0 ≤ bH) (hr : 0 < r) (hβ : 0 < β)
    (h0 : 0 ≤ s) (h1 : s ≤ 1) : 0 ≤ postNum nS nH bS bH r β α s := by
  have hcS : (0:ℚ) < 1 + β := by linarith
  have hcH : (0:ℚ) < r + β := by linarith
  have ht0 := tau_nonneg (1 + β) (r + β) s hcS hcH h0 h1
  have ht1 := tau_le_one (1 + β) (r + β) s hcS hcH h0 h1
  refine Finset.sum_nonneg fun i _ => ?_
  refine mul_nonneg (wS_nonneg nS bS β α i hbS hβ) ?_
  refine Finset.sum_nonneg fun j _ => ?_
  exact mul_nonneg (wH_nonneg nH bH r β α j hbH hr hβ)
    (binTail_nonneg _ _ _ ht0 ht1)

theorem postNum_at_one (nS nH : ℕ) (bS bH r β : ℚ) (α : ℕ)
    (hr : 0 < r) (hβ : 0 < β) (hα : 1 ≤ α) :
    postNum nS nH bS bH r β α 1 = postTot nS nH bS bH r β α := by
  unfold postNum postTot
  rw [tau_at_one (1 + β) (r + β) (by positivity)]
  rw [Finset.sum_mul]
  refine Finset.sum_congr rfl fun i _ => ?_
  congr 1
  refine Finset.sum_congr rfl fun j _ => ?_
  rw [binTail_at_one (i + j + 2 * α - 1) (j + α) (by omega), mul_one]

theorem postNum_at_zero (nS nH : ℕ) (bS bH r β : ℚ) (α : ℕ)
    (hr : 0 < r) (hβ : 0 < β) (hα : 1 ≤ α) :
    postNum nS nH bS bH r β α 0 = 0 := by
  unfold postNum
  rw [tau_at_zero (1 + β) (r + β) (by positivity)]
  refine Finset.sum_eq_zero fun i _ => ?_
  rw [Finset.sum_eq_zero fun j _ => ?_, mul_zero]
  rw [binTail_at_zero (i + j + 2 * α - 1) (j + α) (by omega), mul_zero]

/-- The posterior CDF numerator, with the hard-band sum pulled outside. -/
theorem postNum_comm (nS nH : ℕ) (bS bH r β : ℚ) (α : ℕ) (s : ℚ) :
    postNum nS nH bS bH r β α s =
      ∑ j ∈ Finset.range (nH + 1), wH nH bH r β α j *
        ∑ i ∈ Finset.range (nS + 1), wS nS bS β α i *
          binTail (i + j + 2 * α - 1) (j + α) (tau (1 + β) (r + β) s) := by
  unfold postNum
  rw [Finset.sum_congr rfl fun i _ => Finset.mul_sum _ _ _]
  rw [Finset.sum_comm]
  refine Finset.sum_congr rfl fun j _ => ?_
  rw [Finset.mul_sum]
  refine Finset.sum_congr rfl fun i _ => ?_
  ring

/-- Pointwise CDF dominance in the soft count: adding a soft photon shifts
the posterior toward smaller hardness (cleared-denominator form). -/
theorem postNum_mono_soft (nS nH : ℕ) (bS bH r β : ℚ) (α : ℕ) (s : ℚ)
    (hbS : 0 ≤ bS) (hbH : 0 ≤ bH) (hr : 0 < r) (hβ : 0 < β) (hα : 1 ≤ α)
    (h0 : 0 ≤ s) (h1 : s ≤ 1) :
    postNum nS nH bS bH r β α s * postTot (nS + 1) nH bS bH r β α
      ≤ postNum (nS + 1) nH bS bH r β α s * postTot nS nH bS bH r β α := by
  have hcS : (0:ℚ) < 1 + β := by linarith
  have hcH : (0:ℚ) < r + β := by linarith
  have ht0 := tau_nonneg (1 + β) (r + β) s hcS hcH h0 h1
  have ht1 := tau_le_one (1 + β) (r + β) s hcS hcH h0 h1
  set τ := tau (1 + β) (r + β) s with hτ
  set A : ℕ → ℚ := fun i => ∑ j ∈ Finset.range (nH + 1), wH nH bH r β α j *
      binTail (i + j + 2 * α - 1) (j + α) τ with hA
  have hAmono : ∀ i k, i ≤ k → A i ≤ A k := by
    intro i k hik
    refine Finset.sum_le_sum fun j _ => ?_
    refine mul_le_mul_of_nonneg_left ?_ (wH_nonneg nH bH r β α j hbH hr hβ)
    exact binTail_mono_n _ _ _ τ (by omega) (by omega) ht0 ht1
  have hwz : wS nS bS β α (nS + 1) = 0 :=
    mixWeight_eq_zero nS 1 bS (1 + β) α (nS + 1) (by omega)
  have hcross : ∀ i k, i ≤ k →
      wS (nS + 1) bS β α i * wS nS bS β α k
        ≤ wS nS bS β α i * wS (nS + 1) bS β α k := fun i k hik =>
    mixWeight_cross nS 1 bS (1 + β) α i k hik (by norm_num) hbS (by linarith)
  have key := expectation_shift (Finset.range (nS + 2))
    (wS nS bS β α) (wS (nS + 1) bS β α) A
    (fun i => wS_nonneg nS bS β α i hbS hβ)
    (fun i => wS_nonneg (nS + 1) bS β α i hbS hβ) hAmono hcross
  have hNum : ∀ n' : ℕ, postNum n' nH bS bH r β α s
      = ∑ i ∈ Finset.range (n' + 1), wS n' bS β α i * A i := by
    intro n'
    unfold postNum
    rw [← hτ, hA]
  have hext1 : (∑ i ∈ Finset.range (nS + 2), wS nS bS β α i * A i)
      = ∑ i ∈ Finset.range (nS + 1), wS nS bS β α i * A i := by
    rw [Finset.sum_range_succ, hwz, zero_mul, add_zero]
  have hext2 : (∑ i ∈ Finset.range (nS + 2), wS nS bS β α i)
      = ∑ i ∈ Finset.range (nS + 1), wS nS bS β α i := by
    rw [Finset.sum_range_succ, hwz, add_zero]
  rw [hext1, hext2] at key
  rw [← hNum nS, ← hNum (nS + 1)] at key
  unfold postTot
  set HW := ∑ j ∈ Finset.range (nH + 1), wH nH bH r β α j with hHW
  have hHWnn : 0 ≤ HW := Finset.sum_nonneg fun j _ =>
    wH_nonneg nH bH r β α j hbH hr hβ
  calc postNum nS nH bS bH r β α s
        * ((∑ i ∈ Finset.range (nS + 2), wS (nS + 1) bS β α i) * HW)
      = (postNum nS nH bS bH r β α s
          * (∑ i ∈ Finset.range (nS + 2), wS (nS + 1) bS β α i)) * HW := by ring
    _ ≤ (postNum (nS + 1) nH bS bH r β α s
          * (∑ i ∈ Finset.range (nS + 1), wS nS bS β α i)) * HW :=
        mul_le_mul_of_nonneg_right key hHWnn
    _ = postNum (nS + 1) nH bS bH r β α s
          * ((∑ i ∈ Finset.range (nS + 1), wS nS bS β α i) * HW) := by ring

/-- Pointwise CDF dominance in the hard count: adding a hard photon shifts
the posterior toward larger hardness (cleared-denominator form). -/
theorem postNum_mono_hard (nS nH : ℕ) (bS bH r β : ℚ) (α : ℕ) (s : ℚ)
    (hbS : 0 ≤ bS) (hbH : 0 ≤ bH) (hr : 0 < r) (hβ : 0 < β) (hα : 1 ≤ α)
    (h0 : 0 ≤ s) (h1 : s ≤ 1) :
    postNum nS (nH + 1) bS bH r β α s * postTot nS nH bS bH r β α
      ≤ postNum nS nH bS bH r β α s * postTot nS (nH + 1) bS bH r β α := by
  have hcS : (0:ℚ) < 1 + β := by linarith
  have hcH : (0:ℚ) < r + β := by linarith
  have ht0 := tau_nonneg (1 + β) (r + β) s hcS hcH h0 h1
  have ht1 := tau_le_one (1 + β) (r + β) s hcS hcH h0 h1
  set τ := tau (1 + β) (r + β) s with hτ
  set B : ℕ → ℚ := fun j => ∑ i ∈ Finset.range (nS + 1), wS nS bS β α i *
      binTail (i + j + 2 * α - 1) (j + α) τ with hB
  have hBanti : ∀ j k, j ≤ k → B k ≤ B j := by
    intro j k hjk
    refine Finset.sum_le_sum fun i _ => ?_
    refine mul_le_mul_of_nonneg_left ?_ (wS_nonneg nS bS β α i hbS hβ)
    have harg1 : i + k + 2 * α - 1 = (i + j + 2 * α - 1) + (k - j) := by omega
    have harg2 : k + α = (j + α) + (k - j) := by omega
    rw [harg1, harg2]
    exact binTail_add_both _ _ _ τ ht0 ht1
  have hwz : wH nH bH r β α (nH + 1) = 0 :=
    mixWeight_eq_zero nH r bH (r + β) α (nH + 1) (by omega)
  have hcross : ∀ i k, i ≤ k →
      wH (nH + 1) bH r β α i * wH nH bH r β α k
        ≤ wH nH bH r β α i * wH (nH + 1) bH r β α k := fun i k hik =>
    mixWeight_cross nH r bH (r + β) α i k hik hr.le hbH (by linarith)
  have key := expectation_shift (Finset.range (nH + 2))
    (wH nH bH r β α) (wH (nH + 1) bH r β α) (fun j => - B j)
    (fun j => wH_nonneg nH bH r β α j hbH hr hβ)
    (fun j => wH_nonneg (nH + 1) bH r β α j hbH hr hβ)
    (fun j k hjk => by simpa using hBanti j k hjk) hcross
  have hneg : ∀ (w : ℕ → ℚ) (m : ℕ),
      (∑ j ∈ Finset.range m, w j * - B j) = - ∑ j ∈ Finset.range m, w j * B j := by
    intro w m
    rw [← Finset.sum_neg_distrib]
    exact Finset.sum_congr rfl fun j _ => by ring
  rw [hneg, hneg] at key
  have hNum : ∀ n' : ℕ, postNum nS n' bS bH r β α s
      = ∑ j ∈ Finset.range (n' + 1), wH n' bH r β α j *
          (∑ i ∈ Finset.range (nS + 1), wS nS bS β α i *
            binTail (i + j + 2 * α - 1) (j + α) τ) := by
    intro n'
    rw [postNum_comm, ← hτ]
  have hext1 : (∑ j ∈ Finset.range (nH + 2), wH nH bH r β α j * B j)
      = ∑ j ∈ Finset.range (nH + 1), wH nH bH r β α j * B j := by
    rw [Finset.sum_range_succ, hwz, zero_mul, add_zero]
  have hext2 : (∑ j ∈ Finset.range (nH + 2), wH nH bH r β α j)
      = ∑ j ∈ Finset.range (nH + 1), wH nH bH r β α j := by
    rw [Finset.sum_range_succ, hwz, add_zero]
  rw [hext1, hext2] at key
  have key2 : (∑ j ∈ Finset.range (nH + 2), wH (nH + 1) bH r β α j * B j)
        * (∑ j ∈ Finset.range (nH + 1), wH nH bH r β α j)
      ≤ (∑ j ∈ Finset.range (nH + 1), wH nH bH r β α j * B j)
        * (∑ j ∈ Finset.range (nH + 2), wH (nH + 1) bH r β α j) := by
    nlinarith [key]
  have hB1 : postNum nS nH bS bH r β α s
      = ∑ j ∈ Finset.range (nH + 1), wH nH bH r β α j * B j := hNum nH
  have hB2 : postNum nS (nH + 1) bS bH r β α s
      = ∑ j ∈ Finset.range (nH + 2), wH (nH + 1) bH r β α j * B j := hNum (nH + 1)
  rw [← hB1, ← hB2] at key2
  unfold postTot
  set SW := ∑ i ∈ Finset.range (nS + 1), wS nS bS β α i with hSW
  have hSWnn : 0 ≤ SW := Finset.sum_nonneg fun i _ =>
    wS_nonneg nS bS β α i hbS hβ
  calc postNum nS (nH + 1) bS bH r β α s
        * (SW * (∑ j ∈ Finset.range (nH + 1), wH nH bH r β α j))
      = (postNum nS (nH + 1) bS bH r β α s
          * (∑ j ∈ Finset.range (nH + 1), wH nH bH r β α j)) * SW := by ring
    _ ≤ (postNum nS nH bS bH r β α s
          * (∑ j ∈ Finset.range (nH + 2), wH (nH + 1) bH r β α j)) * SW :=
        mul_le_mul_of_nonneg_right key2 hSWnn
    _ = postNum nS nH bS bH r β α s
          * (SW * (∑ j ∈ Finset.range (nH + 2), wH (nH + 1) bH r β α j)) := by ring

/-- Mirror identity: with equal backgrounds and unit exposure ratio, swapping
the two bands' counts reflects the posterior CDF of the hardness fraction
about `1/2`. -/
theorem postNum_mirror (nS nH : ℕ) (b β : ℚ) (α : ℕ) (s : ℚ)
    (hβ : 0 < β) (hα : 1 ≤ α) :
    postNum nH nS b b 1 β α s + postNum nS nH b b 1 β α (1 - s)
      = postTot nS nH b b 1 β α := by
  have hc : ((1:ℚ) + β) ≠ 0 := by positivity
  have hwHS : ∀ n : ℕ, wH n b 1 β α = wS n b β α := fun n => rfl
  unfold postNum postTot
  rw [tau_self (1 + β) s hc, tau_self (1 + β) (1 - s) hc]
  simp only [hwHS]
  have hinner : ∀ i ∈ Finset.range (nH + 1),
      wS nH b β α i * (∑ j ∈ Finset.range (nS + 1), wS nS b β α j *
          binTail (i + j + 2 * α - 1) (j + α) s)
      = wS nH b β α i * (∑ j ∈ Finset.range (nS + 1), wS nS b β α j)
        - wS nH b β α i * (∑ j ∈ Finset.range (nS + 1), wS nS b β α j *
            binTail (i + j + 2 * α - 1) (i + α) (1 - s)) := by
    intro i _
    rw [← mul_sub]
    congr 1
    rw [← Finset.sum_sub_distrib]
    refine Finset.sum_congr rfl fun j _ => ?_
    have hm := binTail_mirror (i + j + 2 * α - 1) (j + α) s (by omega) (by omega)
    have harg : i + j + 2 * α - 1 - (j + α) + 1 = i + α := by omega
    rw [harg] at hm
    have hval : binTail (i + j + 2 * α - 1) (j + α) s
        = 1 - binTail (i + j + 2 * α - 1) (i + α) (1 - s) := by linarith
    rw [hval]
    ring
  rw [Finset.sum_congr rfl hinner, Finset.sum_sub_distrib]
  have hXeq : (∑ i ∈ Finset.range (nH + 1), wS nH b β α i *
        (∑ j ∈ Finset.range (nS + 1), wS nS b β α j *
          binTail (i + j + 2 * α - 1) (i + α) (1 - s)))
      = ∑ i ∈ Finset.range (nS + 1), wS nS b β α i *
          (∑ j ∈ Finset.range (nH + 1), wS nH b β α j *
            binTail (i + j + 2 * α - 1) (j + α) (1 - s)) := by
    rw [Finset.sum_congr rfl fun i _ => Finset.mul_sum _ _ _]
    rw [Finset.sum_comm]
    rw [Finset.sum_congr rfl fun j _ => (Finset.mul_sum _ _ _ : _)]
    refine Finset.sum_congr rfl fun j _ => ?_
    refine Finset.sum_congr rfl fun i _ => ?_
    have harg : i + j + 2 * α - 1 = j + i + 2 * α - 1 := by omega
    rw [harg]
    ring
  rw [hXeq]
  have hcol : (∑ i ∈ Finset.range (nH + 1), wS nH b β α i *
        (∑ j ∈ Finset.range (nS + 1), wS nS b β α j))
      = (∑ i ∈ Finset.range (nH + 1), wS nH b β α i) *
        (∑ j ∈ Finset.range (nS + 1), wS nS b β α j) :=
    (Finset.sum_mul _ _ _).symm
  rw [hcol]
  ring

/-- Grid resolution used by the estimator (the spec's configurable grid,
fixed to its default here). -/
def gridN : ℕ := 100

/-- The `k`-th grid point in `[0, 1]`. -/
def gpt (k : ℕ) : ℚ := (k : ℚ) / gridN

theorem gridNQ : ((gridN : ℕ) : ℚ) = 100 := by norm_num [gridN]

theorem gpt_nonneg (k : ℕ) : 0 ≤ gpt k := by
  unfold gpt
  rw [gridNQ]
  positivity

theorem gpt_le_one (k : ℕ) (hk : k ≤ gridN) : gpt k ≤ 1 := by
  unfold gpt
  rw [gridNQ]
  rw [div_le_one (by norm_num)]
  have : (k : ℚ) ≤ (gridN : ℚ) := Nat.cast_le.mpr hk
  rw [gridNQ] at this
  exact this

theorem gpt_zero : gpt 0 = 0 := by
  unfold gpt
  norm_num

theorem gpt_top : gpt gridN = 1 := by
  unfold gpt
  rw [gridNQ]
  norm_num

theorem gpt_sub (k : ℕ) (hk : k ≤ gridN) : gpt (gridN - k) = 1 - gpt k := by
  unfold gpt
  rw [Nat.cast_sub hk, gridNQ]
  ring

/-- Smallest grid index whose CDF value reaches the target mass `p * W`. -/
def gridKmin (F : ℚ → ℚ) (W p : ℚ) : ℕ :=
  firstSat (fun k => p * W ≤ F (gpt k)) (gridN + 1)

/-- Largest grid index whose CDF value is still at most the target mass. -/
def gridKmax (F : ℚ → ℚ) (W p : ℚ) : ℕ :=
  Nat.findGreatest (fun k => F (gpt k) ≤ p * W) gridN

/-- Grid `p`-quantile of the hardness ratio `HR = 2x - 1`: the midpoint of the
bracketing grid indices, mapped from `[0, 1]` to `[-1, 1]`. -/
def gridHR (F : ℚ → ℚ) (W p : ℚ) : ℚ :=
  ((gridKmin F W p : ℚ) + (gridKmax F W p : ℚ)) / gridN - 1

theorem gridKmin_le (F : ℚ → ℚ) (W p : ℚ) (h : p * W ≤ F (gpt gridN)) :
    gridKmin F W p ≤ gridN :=
  firstSat_le_of _ (gridN + 1) gridN (by omega) h

theorem gridKmax_le (F : ℚ → ℚ) (W p : ℚ) : gridKmax F W p ≤ gridN :=
  Nat.findGreatest_le gridN

theorem gridHR_lb (F : ℚ → ℚ) (W p : ℚ) : -1 ≤ gridHR F W p := by
  unfold gridHR
  rw [gridNQ]
  have h1 : (0:ℚ) ≤ (gridKmin F W p : ℚ) := Nat.cast_nonneg _
  have h2 : (0:ℚ) ≤ (gridKmax F W p : ℚ) := Nat.cast_nonneg _
  linarith

theorem gridHR_ub (F : ℚ → ℚ) (W p : ℚ) (h : p * W ≤ F (gpt gridN)) :
    gridHR F W p ≤ 1 := by
  unfold gridHR
  rw [gridNQ]
  have h1 : ((gridKmin F W p : ℕ) : ℚ) ≤ ((gridN : ℕ) : ℚ) :=
    Nat.cast_le.mpr (gridKmin_le F W p h)
  have h2 : ((gridKmax F W p : ℕ) : ℚ) ≤ ((gridN : ℕ) : ℚ) :=
    Nat.cast_le.mpr (gridKmax_le F W p)
  rw [gridNQ] at h1 h2
  linarith

theorem gridHR_mono_p (F : ℚ → ℚ) (W p p' : ℚ) (hW : 0 ≤ W) (hpp : p ≤ p') :
    gridHR F W p ≤ gridHR F W p' := by
  have hmin : gridKmin F W p ≤ gridKmin F W p' := by
    refine firstSat_mono _ _ (gridN + 1) fun k _ hk => ?_
    have : p * W ≤ p' * W := mul_le_mul_of_nonneg_right hpp hW
    linarith
  have hmax : gridKmax F W p ≤ gridKmax F W p' := by
    refine findGreatest_mono_of _ _ gridN fun k _ hk => ?_
    have : p * W ≤ p' * W := mul_le_mul_of_nonneg_right hpp hW
    linarith
  unfold gridHR
  rw [gridNQ]
  have h1 : (gridKmin F W p : ℚ) ≤ (gridKmin F W p' : ℚ) := Nat.cast_le.mpr hmin
  have h2 : (gridKmax F W p : ℚ) ≤ (gridKmax F W p' : ℚ) := Nat.cast_le.mpr hmax
  linarith

/-- Pointwise CDF dominance (in cleared-denominator form) forces every grid
quantile downward. -/
theorem gridHR_dominated (F F' : ℚ → ℚ) (W W' p : ℚ) (hW : 0 < W)
    (hW' : 0 < W') (hdom : ∀ k, k ≤ gridN → F (gpt k) * W' ≤ F' (gpt k) * W) :
    gridHR F' W' p ≤ gridHR F W p := by
  have hmin : gridKmin F' W' p ≤ gridKmin F W p := by
    refine firstSat_mono _ _ (gridN + 1) fun k hk hp => ?_
    have hd := hdom k (by omega)
    have h1 : p * W * W' ≤ F (gpt k) * W' :=
      mul_le_mul_of_nonneg_right hp hW'.le
    have h2 : (p * W') * W ≤ F' (gpt k) * W := by
      calc (p * W') * W = p * W * W' := by ring
        _ ≤ F (gpt k) * W' := h1
        _ ≤ F' (gpt k) * W := hd
    exact le_of_mul_le_mul_right h2 hW
  have hmax : gridKmax F' W' p ≤ gridKmax F W p := by
    refine findGreatest_mono_of _ _ gridN fun k hk hq => ?_
    have hd := hdom k hk
    have h1 : F' (gpt k) * W ≤ p * W' * W :=
      mul_le_mul_of_nonneg_right hq hW.le
    have h2 : F (gpt k) * W' ≤ (p * W) * W' := by
      calc F (gpt k) * W' ≤ F' (gpt k) * W := hd
        _ ≤ p * W' * W := h1
        _ = (p * W) * W' := by ring
    exact le_of_mul_le_mul_right h2 hW'
  unfold gridHR
  rw [gridNQ]
  have h1 : ((gridKmin F' W' p : ℕ) : ℚ) ≤ ((gridKmin F W p : ℕ) : ℚ) :=
    Nat.cast_le.mpr hmin
  have h2 : ((gridKmax F' W' p : ℕ) : ℚ) ≤ ((gridKmax F W p : ℕ) : ℚ) :=
    Nat.cast_le.mpr hmax
  linarith

/-- A reflected CDF has the negated grid median. -/
theorem gridHR_mirror (F F' : ℚ → ℚ) (W : ℚ) (hW : 0 ≤ W)
    (hmir : ∀ k, k ≤ gridN → F' (gpt k) = W - F (gpt (gridN - k)))
    (hF0 : F (gpt 0) = 0) (hFN : F (gpt gridN) = W) :
    gridHR F' W (1/2) = - gridHR F W (1/2) := by
  have h1 : gridKmin F' W (1/2) + gridKmax F W (1/2) = gridN := by
    refine firstSat_add_findGreatest _ _ gridN (fun k hk => ?_) ?_
    · constructor
      · intro hp
        rw [hmir k hk] at hp
        linarith
      · intro hq
        rw [hmir k hk]
        linarith
    · rw [hmir gridN (le_refl _), Nat.sub_self, hF0]
      linarith
  have h2 : gridKmin F W (1/2) + gridKmax F' W (1/2) = gridN := by
    refine firstSat_add_findGreatest _ _ gridN (fun k hk => ?_) ?_
    · constructor
      · intro hp
        rw [hmir (gridN - k) (by omega), Nat.sub_sub_self hk]
        linarith
      · intro hq
        rw [hmir (gridN - k) (by omega), Nat.sub_sub_self hk] at hq
        linarith
    · rw [hFN]
      linarith
  have hc1 : ((gridKmin F' W (1/2) : ℕ) : ℚ)
      + ((gridKmax F W (1/2) : ℕ) : ℚ) = ((gridN : ℕ) : ℚ) := by
    exact_mod_cast h1
  have hc2 : ((gridKmin F W (1/2) : ℕ) : ℚ)
      + ((gridKmax F' W (1/2) : ℕ) : ℚ) = ((gridN : ℕ) : ℚ) := by
    exact_mod_cast h2
  rw [gridNQ] at hc1 hc2
  unfold gridHR
  rw [gridNQ]
  linarith

/-- Modelled from the spec: the (unnormalized) posterior CDF of the hardness
fraction for a given observation and prior. -/
def postF (obs : Observation) (pr : PriorSpec) : ℚ → ℚ :=
  postNum obs.soft_counts.toNat obs.hard_counts.toNat obs.soft_background
    obs.hard_background obs.exposure_ratio pr.rate pr.shape

/-- Modelled from the spec: the posterior normalization constant for a given
observation and prior. -/
def postW (obs : Observation) (pr : PriorSpec) : ℚ :=
  postTot obs.soft_counts.toNat obs.hard_counts.toNat obs.soft_background
    obs.hard_background obs.exposure_ratio pr.rate pr.shape

/-- Modelled from the spec: core of `estimate` on validated input — posterior
median as the point estimate, central credible interval from the
`[(1-conf)/2, 1-(1-conf)/2]` quantiles of the marginal HR distribution. -/
def estimateCore (obs : Observation) (pr : PriorSpec) (conf : ℚ) :
    PosteriorResult :=
  { point_estimate := gridHR (postF obs pr) (postW obs pr) (1/2)
    credible_interval :=
      { lower := gridHR (postF obs pr) (postW obs pr) ((1 - conf) / 2)
        upper := gridHR (postF obs pr) (postW obs pr) (1 - (1 - conf) / 2) }
    confidence_level := conf }

/-- Modelled from the spec: the estimator entry point
`estimate(observation, prior_spec, confidence_level) -> PosteriorResult`.
Inputs are validated eagerly; the first offending field is reported in an
`InvalidInputError` and no result is produced. -/
def estimate (obs : Observation) (pr : PriorSpec) (conf : ℚ) :
    Except InvalidInputError PosteriorResult :=
  if obs.soft_counts < 0 then .error ⟨("soft_counts"), (obs.soft_counts : ℚ)⟩
  else if obs.hard_counts < 0 then .error ⟨("hard_counts"), (obs.hard_counts : ℚ)⟩
  else if obs.soft_background < 0 then .error ⟨("soft_background"), obs.soft_background⟩
  else if obs.hard_background < 0 then .error ⟨("hard_background"), obs.hard_background⟩
  else if obs.exposure_ratio ≤ 0 then .error ⟨("exposure_ratio"), obs.exposure_ratio⟩
  else if pr.shape = 0 then .error ⟨("prior_shape"), (pr.shape : ℚ)⟩
  else if pr.rate ≤ 0 then .error ⟨("prior_rate"), pr.rate⟩
  else if conf ≤ 0 then .error ⟨("confidence_level"), conf⟩
  else if 1 ≤ conf then .error ⟨("confidence_level"), conf⟩
  else .ok (estimateCore obs pr conf)

/-- Modelled from the spec: the prior-induced CDF of the hardness fraction.
Under the symmetric per-band `Gamma(shape, rate)` prior the fraction is
`Beta(shape, shape)`-distributed, with CDF `binTail (2·shape - 1) shape`. -/
def priorF (pr : PriorSpec) : ℚ → ℚ := fun s =>
  binTail (2 * pr.shape - 1) pr.shape (tau pr.rate pr.rate s)

/-- Modelled from the spec: statistics of the prior-induced HR distribution,
extracted with the same grid machinery as the posterior. -/
def priorHRResult (pr : PriorSpec) (conf : ℚ) : PosteriorResult :=
  { point_estimate := gridHR (priorF pr) 1 (1/2)
    credible_interval :=
      { lower := gridHR (priorF pr) 1 ((1 - conf) / 2)
        upper := gridHR (priorF pr) 1 (1 - (1 - conf) / 2) }
    confidence_level := conf }

theorem estimate_eq_ok (obs : Observation) (pr : PriorSpec) (conf : ℚ)
    (ho : obs.Valid) (hp : pr.Valid) (hc : ValidConf conf) :
    estimate obs pr conf = .ok (estimateCore obs pr conf) := by
  obtain ⟨h1, h2, h3, h4, h5⟩ := ho
  obtain ⟨h6, h7⟩ := hp
  obtain ⟨h8, h9⟩ := hc
  unfold estimate
  rw [if_neg (by omega), if_neg (by omega), if_neg (by linarith),
    if_neg (by linarith), if_neg (by linarith), if_neg (by omega),
    if_neg (by linarith), if_neg (by linarith), if_neg (by linarith)]

theorem postW_pos_of_valid (obs : Observation) (pr : PriorSpec)
    (ho : obs.Valid) (hp : pr.Valid) : 0 < postW obs pr :=
  postTot_pos _ _ _ _ _ _ _ ho.2.2.1 ho.2.2.2.1 ho.2.2.2.2 hp.2

theorem postF_top (obs : Observation) (pr : PriorSpec)
    (ho : obs.Valid) (hp : pr.Valid) : postF obs pr (gpt gridN) = postW obs pr := by
  unfold postF postW
  rw [gpt_top]
  exact postNum_at_one _ _ _ _ _ _ _ ho.2.2.2.2 hp.2 hp.1

theorem postF_W_le (obs : Observation) (pr : PriorSpec) (p : ℚ)
    (ho : obs.Valid) (hp : pr.Valid) (h1 : p ≤ 1) :
    p * postW obs pr ≤ postF obs pr (gpt gridN) := by
  rw [postF_top obs pr ho hp]
  have hW := postW_pos_of_valid obs pr ho hp
  nlinarith

/-- C2.  For every valid `Observation` (and valid `PriorSpec` and
`confidence_level`), the `PosteriorResult` returned by `estimate` has
`point_estimate` in `[-1, 1]` and both bounds of `credible_interval` in
`[-1, 1]`. -/
theorem C2_results_within_unit_interval (obs : Observation) (pr : PriorSpec)
    (conf : ℚ) (ho : obs.Valid) (hp : pr.Valid) (hc : ValidConf conf) :
    ∃ res, estimate obs pr conf = Except.ok res ∧
      -1 ≤ res.point_estimate ∧ res.point_estimate ≤ 1 ∧
      -1 ≤ res.credible_interval.lower ∧ res.credible_interval.lower ≤ 1 ∧
      -1 ≤ res.credible_interval.upper ∧ res.credible_interval.upper ≤ 1 := by
  refine ⟨estimateCore obs pr conf, estimate_eq_ok obs pr conf ho hp hc,
    ?_, ?_, ?_, ?_, ?_, ?_⟩
  · exact gridHR_lb _ _ _
  · exact gridHR_ub _ _ _ (postF_W_le obs pr _ ho hp (by norm_num))
  · exact gridHR_lb _ _ _
  · exact gridHR_ub _ _ _ (postF_W_le obs pr _ ho hp (by
      obtain ⟨h8, h9⟩ := hc; linarith))
  · exact gridHR_lb _ _ _
  · exact gridHR_ub _ _ _ (postF_W_le obs pr _ ho hp (by
      obtain ⟨h8, h9⟩ := hc; linarith))

/-- C2 witness at a concrete valid input. -/
theorem C2_results_within_unit_interval_witness :
    ∃ res, estimate ⟨3, 5, 0, 0, 1⟩ ⟨1, 1⟩ (17/25) = Except.ok res ∧
      -1 ≤ res.point_estimate ∧ res.point_estimate ≤ 1 ∧
      -1 ≤ res.credible_interval.lower ∧ res.credible_interval.lower ≤ 1 ∧
      -1 ≤ res.credible_interval.upper ∧ res.credible_interval.upper ≤ 1 :=
  C2_results_within_unit_interval ⟨3, 5, 0, 0, 1⟩ ⟨1, 1⟩ (17/25)
    (by constructor <;> norm_num) (by constructor <;> norm_num)
    (by constructor <;> norm_num)

/-- C3.  For every valid input to `estimate`, the returned `PosteriorResult`
satisfies `credible_interval.lower ≤ point_estimate ≤
credible_interval.upper`. -/
theorem C3_point_estimate_within_interval (obs : Observation) (pr : PriorSpec)
    (conf : ℚ) (ho : obs.Valid) (hp : pr.Valid) (hc : ValidConf conf) :
    ∃ res, estimate obs pr conf = Except.ok res ∧
      res.credible_interval.lower ≤ res.point_estimate ∧
      res.point_estimate ≤ res.credible_interval.upper := by
  obtain ⟨h8, h9⟩ := hc
  have hW : 0 ≤ postW obs pr := (postW_pos_of_valid obs pr ho hp).le
  exact ⟨estimateCore obs pr conf, estimate_eq_ok obs pr conf ho hp ⟨h8, h9⟩,
    gridHR_mono_p _ _ _ _ hW (by linarith),
    gridHR_mono_p _ _ _ _ hW (by linarith)⟩

/-- C3 witness at a concrete valid input. -/
theorem C3_point_estimate_within_interval_witness :
    ∃ res, estimate ⟨2, 7, 1/2, 1/4, 2⟩ ⟨2, 3⟩ (9/10) = Except.ok res ∧
      res.credible_interval.lower ≤ res.point_estimate ∧
      res.point_estimate ≤ res.credible_interval.upper :=
  C3_point_estimate_within_interval ⟨2, 7, 1/2, 1/4, 2⟩ ⟨2, 3⟩ (9/10)
    (by constructor <;> norm_num) (by constructor <;> norm_num)
    (by constructor <;> norm_num)

/-- Modelled from the spec: an `Observation` with the optional fields left at
their defaults (zero backgrounds, unit exposure ratio). -/
def defaultObservation (a b : ℤ) : Observation :=
  { soft_counts := a, hard_counts := b, soft_background := 0,
    hard_background := 0, exposure_ratio := 1 }

theorem postNum_zero_zero (β : ℚ) (α : ℕ) (hβ : 0 < β) (s : ℚ) :
    postNum 0 0 0 0 1 β α s
      = (wS 0 0 β α 0 * wH 0 0 1 β α 0) * binTail (2 * α - 1) α s := by
  unfold postNum
  rw [Finset.sum_range_one, Finset.sum_range_one]
  rw [tau_self (1 + β) s (by positivity)]
  norm_num
  ring

theorem postTot_zero_zero (β : ℚ) (α : ℕ) :
    postTot 0 0 0 0 1 β α = wS 0 0 β α 0 * wH 0 0 1 β α 0 := by
  unfold postTot
  rw [Finset.sum_range_one, Finset.sum_range_one]

theorem w00_pos (β : ℚ) (α : ℕ) (hβ : 0 < β) :
    0 < wS 0 0 β α 0 * wH 0 0 1 β α 0 :=
  mul_pos (mixWeight_top_pos 0 1 0 (1 + β) α one_pos (by linarith))
    (mixWeight_top_pos 0 1 0 (1 + β) α one_pos (by linarith))

theorem gridHR_zero_obs (pr : PriorSpec) (p : ℚ) (hp : pr.Valid) :
    gridHR (postF (defaultObservation 0 0) pr)
        (postW (defaultObservation 0 0) pr) p
      = gridHR (priorF pr) 1 p := by
  have hβ := hp.2
  have hw := w00_pos pr.rate pr.shape hβ
  have hprior : ∀ s : ℚ, priorF pr s
      = binTail (2 * pr.shape - 1) pr.shape s := fun s => by
    unfold priorF
    rw [tau_self pr.rate s (ne_of_gt hβ)]
  have hpost : ∀ s : ℚ, postF (defaultObservation 0 0) pr s
      = (wS 0 0 pr.rate pr.shape 0 * wH 0 0 1 pr.rate pr.shape 0)
        * binTail (2 * pr.shape - 1) pr.shape s := fun s =>
    postNum_zero_zero pr.rate pr.shape hβ s
  have hW : postW (defaultObservation 0 0) pr
      = wS 0 0 pr.rate pr.shape 0 * wH 0 0 1 pr.rate pr.shape 0 :=
    postTot_zero_zero pr.rate pr.shape
  have hkmin : gridKmin (postF (defaultObservation 0 0) pr)
      (postW (defaultObservation 0 0) pr) p = gridKmin (priorF pr) 1 p := by
    unfold gridKmin
    refine firstSat_congr _ _ (gridN + 1) fun k _ => ?_
    rw [hpost, hprior, hW, mul_one]
    constructor
    · intro h
      rw [mul_comm p (wS 0 0 pr.rate pr.shape 0 * wH 0 0 1 pr.rate pr.shape 0)] at h
      exact le_of_mul_le_mul_left h hw
    · intro h
      rw [mul_comm p (wS 0 0 pr.rate pr.shape 0 * wH 0 0 1 pr.rate pr.shape 0)]
      exact mul_le_mul_of_nonneg_left h hw.le
  have hkmax : gridKmax (postF (defaultObservation 0 0) pr)
      (postW (defaultObservation 0 0) pr) p = gridKmax (priorF pr) 1 p := by
    unfold gridKmax
    refine findGreatest_congr _ _ gridN fun k _ => ?_
    rw [hpost, hprior, hW, mul_one]
    constructor
    · intro h
      rw [mul_comm p (wS 0 0 pr.rate pr.shape 0 * wH 0 0 1 pr.rate pr.shape 0)] at h
      exact le_of_mul_le_mul_left h hw
    · intro h
      rw [mul_comm p (wS 0 0 pr.rate pr.shape 0 * wH 0 0 1 pr.rate pr.shape 0)]
      exact mul_le_mul_of_nonneg_left h hw.le
  unfold gridHR
  rw [hkmin, hkmax]

/-- C1.  For the `Observation` with `soft_counts = 0`, `hard_counts = 0` and
zero backgrounds, `estimate` does not raise (no division error) and returns a
`PosteriorResult` whose statistics equal those of the prior-induced HR
distribution (here they agree exactly, hence within any tolerance). -/
theorem C1_zero_counts_reduce_to_prior (pr : PriorSpec) (conf : ℚ)
    (hp : pr.Valid) (hc : ValidConf conf) :
    estimate (defaultObservation 0 0) pr conf
      = Except.ok (priorHRResult pr conf) := by
  have ho : (defaultObservation 0 0).Valid := by
    refine ⟨?_, ?_, ?_, ?_, ?_⟩ <;> norm_num [defaultObservation]
  rw [estimate_eq_ok _ _ _ ho hp hc]
  unfold estimateCore priorHRResult
  rw [gridHR_zero_obs pr (1/2) hp, gridHR_zero_obs pr ((1 - conf) / 2) hp,
    gridHR_zero_obs pr (1 - (1 - conf) / 2) hp]

/-- C1 witness at a concrete valid prior and confidence level. -/
theorem C1_zero_counts_reduce_to_prior_witness :
    estimate (defaultObservation 0 0) ⟨1, 1⟩ (1/2)
      = Except.ok (priorHRResult ⟨1, 1⟩ (1/2)) :=
  C1_zero_counts_reduce_to_prior ⟨1, 1⟩ (1/2)
    (by constructor <;> norm_num) (by constructor <;> norm_num)

/-- Modelled from the spec: the returned error names an actually-offending
field and carries that field's value. -/
def OffendingField (e : InvalidInputError) (obs : Observation)
    (pr : PriorSpec) (conf : ℚ) : Prop :=
  (e.field = ("soft_counts") ∧ obs.soft_counts < 0 ∧ e.value = (obs.soft_counts : ℚ)) ∨
  (e.field = ("hard_counts") ∧ obs.hard_counts < 0 ∧ e.value = (obs.hard_counts : ℚ)) ∨
  (e.field = ("soft_background") ∧ obs.soft_background < 0 ∧ e.value = obs.soft_background) ∨
  (e.field = ("hard_background") ∧ obs.hard_background < 0 ∧ e.value = obs.hard_background) ∨
  (e.field = ("exposure_ratio") ∧ obs.exposure_ratio ≤ 0 ∧ e.value = obs.exposure_ratio) ∨
  (e.field = ("prior_shape") ∧ pr.shape = 0 ∧ e.value = (pr.shape : ℚ)) ∨
  (e.field = ("prior_rate") ∧ pr.rate ≤ 0 ∧ e.value = pr.rate) ∨
  (e.field = ("confidence_level") ∧ (conf ≤ 0 ∨ 1 ≤ conf) ∧ e.value = conf)

/-- C4.  For every invalid input — negative counts, negative backgrounds,
non-positive exposure ratio, an improper (non-normalizable) prior, or a
confidence level outside `(0, 1)` — `estimate` raises `InvalidInputError`
carrying the offending field name and value, and no `PosteriorResult` is
produced. -/
theorem C4_invalid_input_raises (obs : Observation) (pr : PriorSpec)
    (conf : ℚ) (h : ¬ (obs.Valid ∧ pr.Valid ∧ ValidConf conf)) :
    ∃ e, estimate obs pr conf = Except.error e ∧ OffendingField e obs pr conf := by
  unfold estimate
  by_cases h1 : obs.soft_counts < 0
  · exact ⟨_, by rw [if_pos h1], Or.inl ⟨rfl, h1, rfl⟩⟩
  rw [if_neg h1]
  by_cases h2 : obs.hard_counts < 0
  · exact ⟨_, by rw [if_pos h2], Or.inr (Or.inl ⟨rfl, h2, rfl⟩)⟩
  rw [if_neg h2]
  by_cases h3 : obs.soft_background < 0
  · exact ⟨_, by rw [if_pos h3], Or.inr (Or.inr (Or.inl ⟨rfl, h3, rfl⟩))⟩
  rw [if_neg h3]
  by_cases h4 : obs.hard_background < 0
  · exact ⟨_, by rw [if_pos h4], Or.inr (Or.inr (Or.inr (Or.inl ⟨rfl, h4, rfl⟩)))⟩
  rw [if_neg h4]
  by_cases h5 : obs.exposure_ratio ≤ 0
  · exact ⟨_, by rw [if_pos h5],
      Or.inr (Or.inr (Or.inr (Or.inr (Or.inl ⟨rfl, h5, rfl⟩))))⟩
  rw [if_neg h5]
  by_cases h6 : pr.shape = 0
  · exact ⟨_, by rw [if_pos h6],
      Or.inr (Or.inr (Or.inr (Or.inr (Or.inr (Or.inl ⟨rfl, h6, rfl⟩)))))⟩
  rw [if_neg h6]
  by_cases h7 : pr.rate ≤ 0
  · exact ⟨_, by rw [if_pos h7],
      Or.inr (Or.inr (Or.inr (Or.inr (Or.inr (Or.inr (Or.inl ⟨rfl, h7, rfl⟩))))))⟩
  rw [if_neg h7]
  by_cases h8 : conf ≤ 0
  · exact ⟨_, by rw [if_pos h8],
      Or.inr (Or.inr (Or.inr (Or.inr (Or.inr (Or.inr (Or.inr
        ⟨rfl, Or.inl h8, rfl⟩))))))⟩
  rw [if_neg h8]
  by_cases h9 : 1 ≤ conf
  · exact ⟨_, by rw [if_pos h9],
      Or.inr (Or.inr (Or.inr (Or.inr (Or.inr (Or.inr (Or.inr
        ⟨rfl, Or.inr h9, rfl⟩))))))⟩
  exact absurd ⟨⟨by omega, by omega, by linarith, by linarith, by linarith⟩,
    ⟨by omega, by linarith⟩, ⟨by linarith, by linarith⟩⟩ h

/-- C4 witness: a negative soft count raises `InvalidInputError`. -/
theorem C4_invalid_input_raises_witness :
    ∃ e, estimate ⟨-1, 5, 0, 0, 1⟩ ⟨1, 1⟩ (17/25) = Except.error e ∧
      OffendingField e ⟨-1, 5, 0, 0, 1⟩ ⟨1, 1⟩ (17/25) :=
  C4_invalid_input_raises ⟨-1, 5, 0, 0, 1⟩ ⟨1, 1⟩ (17/25)
    (by intro hv; exact absurd hv.1.1 (by norm_num))

theorem gridHR_soft_mono (nS nH d : ℕ) (bS bH r β : ℚ) (α : ℕ) (p : ℚ)
    (hbS : 0 ≤ bS) (hbH : 0 ≤ bH) (hr : 0 < r) (hβ : 0 < β) (hα : 1 ≤ α) :
    gridHR (postNum (nS + d) nH bS bH r β α) (postTot (nS + d) nH bS bH r β α) p
      ≤ gridHR (postNum nS nH bS bH r β α) (postTot nS nH bS bH r β α) p := by
  induction d with
  | zero => exact le_refl _
  | succ d ih =>
    refine le_trans ?_ ih
    exact gridHR_dominated (postNum (nS + d) nH bS bH r β α)
      (postNum (nS + d + 1) nH bS bH r β α)
      (postTot (nS + d) nH bS bH r β α) (postTot (nS + d + 1) nH bS bH r β α) p
      (postTot_pos _ _ _ _ _ _ _ hbS hbH hr hβ)
      (postTot_pos _ _ _ _ _ _ _ hbS hbH hr hβ)
      (fun k hk => postNum_mono_soft (nS + d) nH bS bH r β α (gpt k)
        hbS hbH hr hβ hα (gpt_nonneg k) (gpt_le_one k hk))

theorem gridHR_hard_mono (nS nH d : ℕ) (bS bH r β : ℚ) (α : ℕ) (p : ℚ)
    (hbS : 0 ≤ bS) (hbH : 0 ≤ bH) (hr : 0 < r) (hβ : 0 < β) (hα : 1 ≤ α) :
    gridHR (postNum nS nH bS bH r β α) (postTot nS nH bS bH r β α) p
      ≤ gridHR (postNum nS (nH + d) bS bH r β α)
          (postTot nS (nH + d) bS bH r β α) p := by
  induction d with
  | zero => exact le_refl _
  | succ d ih =>
    refine le_trans ih ?_
    exact gridHR_dominated (postNum nS (nH + d + 1) bS bH r β α)
      (postNum nS (nH + d) bS bH r β α)
      (postTot nS (nH + d + 1) bS bH r β α) (postTot nS (nH + d) bS bH r β α) p
      (postTot_pos _ _ _ _ _ _ _ hbS hbH hr hβ)
      (postTot_pos _ _ _ _ _ _ _ hbS hbH hr hβ)
      (fun k hk => postNum_mono_hard nS (nH + d) bS bH r β α (gpt k)
        hbS hbH hr hβ hα (gpt_nonneg k) (gpt_le_one k hk))

/-- C5.  For every valid `Observation`, holding `hard_counts` fixed,
increasing `soft_counts` moves the returned `point_estimate` monotonically
downward toward `-1`; symmetrically, increasing `hard_counts` moves it
monotonically upward.  Stated for an arbitrary increment `d`. -/
theorem C5_count_monotonicity (obs : Observation) (pr : PriorSpec) (conf : ℚ)
    (ho : obs.Valid) (hp : pr.Valid) (hc : ValidConf conf) (d : ℕ) :
    ∃ res resS resH,
      estimate obs pr conf = Except.ok res ∧
      estimate { obs with soft_counts := obs.soft_counts + d } pr conf
        = Except.ok resS ∧
      estimate { obs with hard_counts := obs.hard_counts + d } pr conf
        = Except.ok resH ∧
      resS.point_estimate ≤ res.point_estimate ∧
      res.point_estimate ≤ resH.point_estimate := by
  obtain ⟨a, b, sb, hb, er⟩ := obs
  obtain ⟨h1, h2, h3, h4, h5⟩ := ho
  replace h1 : 0 ≤ a := h1
  replace h2 : 0 ≤ b := h2
  replace h3 : 0 ≤ sb := h3
  replace h4 : 0 ≤ hb := h4
  replace h5 : 0 < er := h5
  have hoS : (Observation.mk (a + (d:ℤ)) b sb hb er).Valid :=
    ⟨show (0:ℤ) ≤ a + (d:ℤ) by omega, h2, h3, h4, h5⟩
  have hoH : (Observation.mk a (b + (d:ℤ)) sb hb er).Valid :=
    ⟨h1, show (0:ℤ) ≤ b + (d:ℤ) by omega, h3, h4, h5⟩
  refine ⟨_, _, _, estimate_eq_ok _ _ _ ⟨h1, h2, h3, h4, h5⟩ hp hc,
    estimate_eq_ok _ _ _ hoS hp hc, estimate_eq_ok _ _ _ hoH hp hc, ?_, ?_⟩
  · show gridHR (postNum ((a + (d:ℤ)).toNat) b.toNat sb hb er pr.rate pr.shape)
        (postTot ((a + (d:ℤ)).toNat) b.toNat sb hb er pr.rate pr.shape) (1/2)
      ≤ gridHR (postNum a.toNat b.toNat sb hb er pr.rate pr.shape)
        (postTot a.toNat b.toNat sb hb er pr.rate pr.shape) (1/2)
    have hcast : (a + (d:ℤ)).toNat = a.toNat + d := by omega
    rw [hcast]
    exact gridHR_soft_mono a.toNat b.toNat d sb hb er pr.rate pr.shape (1/2)
      h3 h4 h5 hp.2 hp.1
  · show gridHR (postNum a.toNat b.toNat sb hb er pr.rate pr.shape)
        (postTot a.toNat b.toNat sb hb er pr.rate pr.shape) (1/2)
      ≤ gridHR (postNum a.toNat ((b + (d:ℤ)).toNat) sb hb er pr.rate pr.shape)
        (postTot a.toNat ((b + (d:ℤ)).toNat) sb hb er pr.rate pr.shape) (1/2)
    have hcast : (b + (d:ℤ)).toNat = b.toNat + d := by omega
    rw [hcast]
    exact gridHR_hard_mono a.toNat b.toNat d sb hb er pr.rate pr.shape (1/2)
      h3 h4 h5 hp.2 hp.1

/-- C5 witness at a concrete valid input and increment. -/
theorem C5_count_monotonicity_witness :
    ∃ res resS resH,
      estimate ⟨4, 2, 0, 0, 1⟩ ⟨1, 1⟩ (17/25) = Except.ok res ∧
      estimate { Observation.mk 4 2 0 0 1 with
          soft_counts := Observation.soft_counts ⟨4, 2, 0, 0, 1⟩ + (3:ℕ) } ⟨1, 1⟩ (17/25)
        = Except.ok resS ∧
      estimate { Observation.mk 4 2 0 0 1 with
          hard_counts := Observation.hard_counts ⟨4, 2, 0, 0, 1⟩ + (3:ℕ) } ⟨1, 1⟩ (17/25)
        = Except.ok resH ∧
      resS.point_estimate ≤ res.point_estimate ∧
      res.point_estimate ≤ resH.point_estimate :=
  C5_count_monotonicity ⟨4, 2, 0, 0, 1⟩ ⟨1, 1⟩ (17/25)
    (by constructor <;> norm_num) (by constructor <;> norm_num)
    (by constructor <;> norm_num) 3

theorem postTot_swap (nS nH : ℕ) (b β : ℚ) (α : ℕ) :
    postTot nH nS b b 1 β α = postTot nS nH b b 1 β α := by
  unfold postTot
  have hwHS : ∀ n : ℕ, wH n b 1 β α = wS n b β α := fun n => rfl
  simp only [hwHS]
  ring

/-- C6.  Under a symmetric prior, for every pair of non-negative counts `a`
and `b`, the point estimate for `Observation(soft_counts = a, hard_counts =
b)` is the negative of the point estimate for `Observation(soft_counts = b,
hard_counts = a)`. -/
theorem C6_swap_negates_point_estimate (pr : PriorSpec) (conf : ℚ)
    (hp : pr.Valid) (hc : ValidConf conf) (a b : ℕ) :
    ∃ res res',
      estimate (defaultObservation a b) pr conf = Except.ok res ∧
      estimate (defaultObservation b a) pr conf = Except.ok res' ∧
      res'.point_estimate = - res.point_estimate := by
  have hoab : (defaultObservation a b).Valid :=
    ⟨show (0:ℤ) ≤ (a:ℤ) by omega, show (0:ℤ) ≤ (b:ℤ) by omega,
      show (0:ℚ) ≤ 0 by norm_num, show (0:ℚ) ≤ 0 by norm_num,
      show (0:ℚ) < 1 by norm_num⟩
  have hoba : (defaultObservation b a).Valid :=
    ⟨show (0:ℤ) ≤ (b:ℤ) by omega, show (0:ℤ) ≤ (a:ℤ) by omega,
      show (0:ℚ) ≤ 0 by norm_num, show (0:ℚ) ≤ 0 by norm_num,
      show (0:ℚ) < 1 by norm_num⟩
  refine ⟨_, _, estimate_eq_ok _ _ _ hoab hp hc,
    estimate_eq_ok _ _ _ hoba hp hc, ?_⟩
  show gridHR (postF (defaultObservation b a) pr)
      (postW (defaultObservation b a) pr) (1/2)
    = - gridHR (postF (defaultObservation a b) pr)
      (postW (defaultObservation a b) pr) (1/2)
  have hW' : postW (defaultObservation b a) pr
      = postW (defaultObservation a b) pr :=
    postTot_swap a b 0 pr.rate pr.shape
  rw [hW']
  refine gridHR_mirror (postF (defaultObservation a b) pr)
    (postF (defaultObservation b a) pr)
    (postW (defaultObservation a b) pr)
    (postW_pos_of_valid _ _ hoab hp).le ?_ ?_ ?_
  · intro k hk
    have hm := postNum_mirror a b 0 pr.rate pr.shape (gpt k) hp.2 hp.1
    rw [← gpt_sub k hk] at hm
    show postNum b a 0 0 1 pr.rate pr.shape (gpt k)
      = postTot a b 0 0 1 pr.rate pr.shape
        - postNum a b 0 0 1 pr.rate pr.shape (gpt (gridN - k))
    linarith
  · show postNum a b 0 0 1 pr.rate pr.shape (gpt 0) = 0
    rw [gpt_zero]
    exact postNum_at_zero a b 0 0 1 pr.rate pr.shape one_pos hp.2 hp.1
  · show postNum a b 0 0 1 pr.rate pr.shape (gpt gridN)
      = postTot a b 0 0 1 pr.rate pr.shape
    rw [gpt_top]
    exact postNum_at_one a b 0 0 1 pr.rate pr.shape one_pos hp.2 hp.1

/-- C6 witness at concrete counts. -/
theorem C6_swap_negates_point_estimate_witness :
    ∃ res res',
      estimate (defaultObservation 2 9) ⟨1, 1⟩ (17/25) = Except.ok res ∧
      estimate (defaultObservation 9 2) ⟨1, 1⟩ (17/25) = Except.ok res' ∧
      res'.point_estimate = - res.point_estimate :=
  C6_swap_negates_point_estimate ⟨1, 1⟩ (17/25)
    (by constructor <;> norm_num) (by constructor <;> norm_num) 2 9

/-- Modelled from the spec: a linear congruential pseudo-random generator
step, the deterministic seed-driven source of the sampling path. -/
def lcg (s : ℕ) : ℕ := (1664525 * s + 1013904223) % 4294967296

/-- The `t`-th PRNG state reached from `seed`. -/
def lcgSeq (seed : ℕ) : ℕ → ℕ
  | 0 => lcg seed
  | t + 1 => lcg (lcgSeq seed t)

/-- A PRNG state mapped into a uniform variate in `(0, 1)`. -/
def uniform01 (u : ℕ) : ℚ := (((u % 4294967296 : ℕ) : ℚ) + 1) / 4294967297

/-- Modelled from the spec: the fixed sample count of the sampling path. -/
def sampleCount : ℕ := 32

def insertSorted (x : ℚ) : List ℚ → List ℚ
  | [] => [x]
  | y :: ys => if x ≤ y then x :: y :: ys else y :: insertSorted x ys

def sortQ : List ℚ → List ℚ
  | [] => []
  | x :: xs => insertSorted x (sortQ xs)

/-- Modelled from the spec: exact conjugate posterior draws by inverse-CDF
sampling — each uniform variate is pushed through the posterior quantile
function. -/
def posteriorDraws (seed : ℕ) (obs : Observation) (pr : PriorSpec) : List ℚ :=
  (List.range sampleCount).map fun t =>
    gridHR (postF obs pr) (postW obs pr) (uniform01 (lcgSeq seed t))

/-- Modelled from the spec: the sampling-based estimation path.  Validation
is identical to the grid path; the point estimate and interval are empirical
quantiles of the sorted posterior draws, all driven by the explicit seed. -/
def estimateSampling (seed : ℕ) (obs : Observation) (pr : PriorSpec)
    (conf : ℚ) : Except InvalidInputError PosteriorResult :=
  match estimate obs pr conf with
  | Except.error e => Except.error e
  | Except.ok _ =>
    let draws := sortQ (posteriorDraws seed obs pr)
    Except.ok
      { point_estimate := draws.getD (sampleCount / 2) 0
        credible_interval :=
          { lower := draws.getD (((1 - conf) / 2 * (sampleCount : ℚ)).floor.toNat) 0
            upper := draws.getD (((1 - (1 - conf) / 2) * (sampleCount : ℚ)).floor.toNat) 0 }
        confidence_level := conf }

/-- Modelled from the spec: `t` repeated runs of the sampling path with one
fixed seed and fixed inputs. -/
def repeatedRuns (t seed : ℕ) (obs : Observation) (pr : PriorSpec)
    (conf : ℚ) : List (Except InvalidInputError PosteriorResult) :=
  (List.range t).map fun _ => estimateSampling seed obs pr conf

/-- C7.  For every fixed random seed and every valid input, repeated runs of
the sampling-based estimation path return bit-identical `PosteriorResult`s:
any two entries of the run list agree.  In this pure embedding the sampling
path is a function of the seed and the inputs alone, so determinism holds
definitionally. -/
theorem C7_sampling_deterministic (t seed : ℕ) (obs : Observation)
    (pr : PriorSpec) (conf : ℚ) (i j : ℕ) (hi : i < t) (hj : j < t) :
    (repeatedRuns t seed obs pr conf)[i]?
      = (repeatedRuns t seed obs pr conf)[j]? := by
  unfold repeatedRuns
  rw [List.getElem?_map, List.getElem?_map, List.getElem?_range hi,
    List.getElem?_range hj]
  rfl

/-- C7 witness: two concrete runs with the same seed agree. -/
theorem C7_sampling_deterministic_witness :
    (repeatedRuns 2 7 (defaultObservation 1 4) ⟨1, 1⟩ (17/25))[0]?
      = (repeatedRuns 2 7 (defaultObservation 1 4) ⟨1, 1⟩ (17/25))[1]? :=
  C7_sampling_deterministic 2 7 (defaultObservation 1 4) ⟨1, 1⟩ (17/25) 0 1
    (by norm_num) (by norm_num)

/-- Modelled from the spec: the recommended vectorized batch entry point —
one estimation per supplied triple, order-preserving. -/
def batchEstimate (inputs : List (Observation × PriorSpec × ℚ)) :
    List (Except InvalidInputError PosteriorResult) :=
  inputs.map fun t => estimate t.1 t.2.1 t.2.2

/-- C8.  `estimate` is a pure, stateless function of its inputs: the result
of every call in a batch depends only on the triple supplied for that call
(no shared mutable state, nothing persists across calls), and batching
preserves order.  In this pure embedding, statelessness is the fact that the
`i`-th batch result is exactly `estimate` of the `i`-th input triple. -/
theorem C8_estimate_stateless (l : List (Observation × PriorSpec × ℚ))
    (i : ℕ) :
    (batchEstimate l)[i]? = (l[i]?).map fun t => estimate t.1 t.2.1 t.2.2 := by
  unfold batchEstimate
  rw [List.getElem?_map]

/-- Embedding of `src/setup.py`: the keyword arguments passed to the single
`setuptools.setup` call, with `long_description` read from `README.md`. -/
structure SetupCall where
  name : String
  version : String
  author : String
  author_email : String
  description : String
  long_description : String
  long_description_content_type : String
  url : String
  install_requires : List String
  classifiers : List String

/-- Embedding of `src/setup.py` lines 6-20: the metadata of the `setup` call,
parameterized by the contents read from `README.md`. -/
def fasthrSetupCall (readme : String) : SetupCall :=
  { name := ("fasthr")
    version := ("1.1")
    author := ("Fan Zou")
    author_email := ("fuz64@psu.edu")
    description := ("A Python function that efficiently and accurately calculates hardness ratios for X-ray sources using a Bayesian approach")
    long_description := readme
    long_description_content_type := ("text/markdown")
    url := ("https://github.com/fanzou99/FastHR")
    install_requires := [("numpy"), ("scipy")]
    classifiers := [("Programming Language :: Python :: 3"),
      ("License :: OSI Approved :: MIT License")] }

/-- Embedding of `src/setup.py` as a whole: the script first opens and reads
`README.md` from its environment (a map from file names to contents); if the
file is absent the open fails with an unhandled error and `setup` is never
called, otherwise `setup` is called exactly once. -/
def setupPyScript (env : String → Option String) :
    Except String (List SetupCall) :=
  match env ("README.md") with
  | none => Except.error ("FileNotFoundError: README.md")
  | some readme => Except.ok [fasthrSetupCall readme]

/-- Embedding of the provided source tree: the file names present under
`src/`. -/
def srcFiles : List String := [("setup.py")]

/-- Embedding of the provided source tree: the successive versions of the
build/install descriptor actually present (a single `setup.py`, declaring
version 1.1). -/
def srcDescriptorVersions : List String := [("1.1")]

/-- C9 counterexample: the provided sources contain exactly one version of
the build/install descriptor, not three. -/
theorem C9_not_three_versions :
    srcDescriptorVersions.length = 1 ∧ srcDescriptorVersions.length ≠ 3 := by
  constructor <;> simp [srcDescriptorVersions]

/-- C9 (amended).  The provided repository sources consist exclusively of
packaging metadata for a library named "fasthr" — a single build/install
descriptor, `setup.py`, declaring version 1.1 — with no algorithmic source
code present, and the declared dependency set is exactly numpy and scipy. -/
theorem C9_packaging_metadata_only :
    srcFiles = [("setup.py")] ∧ srcDescriptorVersions = [("1.1")] ∧
    (fasthrSetupCall ("x")).name = ("fasthr") ∧
    (fasthrSetupCall ("x")).version = ("1.1") ∧
    (fasthrSetupCall ("x")).install_requires = [("numpy"), ("scipy")] :=
  ⟨rfl, rfl, rfl, rfl, rfl⟩

/-- C10.  `setup.py` unconditionally opens and reads `README.md` before
invoking `setuptools.setup`; in every environment where `README.md` is
absent the script fails with an unhandled file-open error and `setup` is
never called, while when `README.md` exists `setup` is called exactly once
with `long_description` equal to the file's full contents. -/
theorem C10_readme_read_gates_setup :
    (∀ env : String → Option String, env ("README.md") = none →
      setupPyScript env = Except.error ("FileNotFoundError: README.md")) ∧
    (∀ (env : String → Option String) (s : String),
      env ("README.md") = some s →
      setupPyScript env = Except.ok [fasthrSetupCall s] ∧
      (fasthrSetupCall s).long_description = s ∧
      [fasthrSetupCall s].length = 1) := by
  constructor
  · intro env h
    unfold setupPyScript
    rw [h]
  · intro env s h
    unfold setupPyScript
    rw [h]
    exact ⟨rfl, rfl, rfl⟩

/-- C10 witness: a concrete environment without `README.md` fails; one with
it succeeds with the contents as `long_description`. -/
theorem C10_readme_read_gates_setup_witness :
    setupPyScript (fun _ => none)
      = Except.error ("FileNotFoundError: README.md") ∧
    (setupPyScript (fun f => if f = ("README.md") then some ("hello") else none)
      = Except.ok [fasthrSetupCall ("hello")] ∧
      (fasthrSetupCall ("hello")).long_description = ("hello") ∧
      [fasthrSetupCall ("hello")].length = 1) :=
  ⟨C10_readme_read_gates_setup.1 (fun _ => none) rfl,
    C10_readme_read_gates_setup.2
      (fun f => if f = ("README.md") then some ("hello") else none)
      ("hello") (by norm_num)⟩

end FastHR
